import Mathlib

/-!
Shallow embedding of `pennylane/devices/qubit/simulate.py` (statevector
simulation core: `_postselection_postprocess`, `get_final_state`,
`measure_final_state`, `simulate`, `simulate_native_mcm`,
`has_mid_circuit_measurements`, `idx_sampling_measurements`,
`idx_analytic_measurements`, `gather_native_mid_circuit_measurements`).

Machine floating point numbers are embedded as exact rationals together with
an explicit `nan` element (`Flt`); division by zero produces `nan`, which is
how an invalid-but-detectable state is represented.  The rationals are a
kernel-computable normalized fraction type (`Rq`), so every theorem below can
be checked on concrete inputs by evaluation.  External collaborator modules
that are not part of the source tree (`apply_operation.py`, `measure.py`,
`sampling.py`, `initialize_state.py`, the `QuantumScript` methods) are
modelled from the specification; each such definition carries a doc comment
saying so.  Process-global randomness (`np.random`, also consumed by
mid-circuit measurement collapse, which receives no explicit generator) is
made explicit as a `World` value threaded through every call, while the
seedable generator passed as the `rng` argument is modelled as a pure stream
derived from the seed.
-/

/-- Euclid with explicit fuel, so that the kernel can evaluate it. -/
def gcdAux : Nat → Nat → Nat → Nat
  | 0, a, _ => a
  | fuel + 1, a, b => if b = 0 then a else gcdAux fuel b (a % b)

/-- Greatest common divisor (fuel is always sufficient). -/
def natGcd (a b : Nat) : Nat := gcdAux (a + b + 1) a b

/-- Kernel-computable rational: a normalized fraction.  All values are
built through `Rq.mk'`, which reduces the fraction, so structural equality
coincides with equality of rationals. -/
structure Rq where
  num : Int
  den : Nat
deriving DecidableEq, Repr

/-- Build a reduced fraction from a numerator and a positive denominator. -/
def Rq.mk' (n : Int) (d : Nat) : Rq :=
  if d = 0 then ⟨0, 1⟩
  else
    let g := natGcd n.natAbs d
    if g = 0 then ⟨0, 1⟩ else ⟨n / (g : Int), d / g⟩

/-- Embed an integer. -/
def Rq.ofInt (n : Int) : Rq := ⟨n, 1⟩

/-- Rational addition. -/
def Rq.add (a b : Rq) : Rq :=
  Rq.mk' (a.num * (b.den : Int) + b.num * (a.den : Int)) (a.den * b.den)

/-- Rational subtraction. -/
def Rq.sub (a b : Rq) : Rq :=
  Rq.mk' (a.num * (b.den : Int) - b.num * (a.den : Int)) (a.den * b.den)

/-- Rational multiplication. -/
def Rq.mul (a b : Rq) : Rq := Rq.mk' (a.num * b.num) (a.den * b.den)

/-- Rational division (caller guards the zero divisor). -/
def Rq.div (a b : Rq) : Rq :=
  let s : Int := if b.num < 0 then -1 else 1
  Rq.mk' (s * a.num * (b.den : Int)) (a.den * b.num.natAbs)

/-- Decidable order on reduced fractions (denominators are positive). -/
def Rq.le (a b : Rq) : Bool := a.num * (b.den : Int) ≤ b.num * (a.den : Int)

/-- Whether a reduced fraction is zero. -/
def Rq.isZero (a : Rq) : Bool := a.num = 0

/-- Floor square root on naturals by bounded search (kernel-computable). -/
def natSqrt (n : Nat) : Nat :=
  (List.range (n + 1)).foldl (fun acc k => if k * k ≤ n then k else acc) 0

/-- Square root of a rational: exact when numerator and denominator are
perfect squares, floor-approximate otherwise (machine square roots round;
all states appearing in the theorems below have perfect-square norms,
where this is exact). -/
def rqSqrt (q : Rq) : Rq :=
  if q.num ≤ 0 then Rq.ofInt 0
  else Rq.mk' (natSqrt q.num.toNat) (natSqrt q.den)

/-- Machine float model: an exact rational, or the invalid value `nan`
(which also stands for `inf`, since the code only distinguishes valid
from invalid results). -/
inductive Flt where
  | fin (q : Rq)
  | nan
deriving DecidableEq, Repr

/-- Float addition; any operation touching `nan` yields `nan`. -/
def Flt.add : Flt → Flt → Flt
  | .fin a, .fin b => .fin (a.add b)
  | _, _ => .nan

/-- Float multiplication; any operation touching `nan` yields `nan`. -/
def Flt.mul : Flt → Flt → Flt
  | .fin a, .fin b => .fin (a.mul b)
  | _, _ => .nan

/-- Float division.  Division by zero yields `nan` (the invalid marker):
this is how `state / 0.0` produces a NaN/Inf-bearing state. -/
def Flt.div : Flt → Flt → Flt
  | .fin a, .fin b => if b.isZero then .nan else .fin (a.div b)
  | _, _ => .nan

/-- Square of a float. -/
def Flt.sq (a : Flt) : Flt := a.mul a

/-- Float square root; `nan` propagates. -/
def Flt.sqrt : Flt → Flt
  | .fin q => .fin (rqSqrt q)
  | .nan => .nan

/-- Test from `qml.math.allclose(x, 0.0)` with numpy default tolerances
(absolute tolerance 1e-8, and the relative part vanishes against 0);
`nan` is never close to anything. -/
def Flt.allcloseZero : Flt → Bool
  | .fin q => q.num.natAbs * 100000000 ≤ q.den
  | .nan => false

/-- Sum of squared magnitudes of a float list (the squared 2-norm). -/
def normSqL (l : List Flt) : Flt :=
  l.foldl (fun acc a => acc.add (a.mul a)) (.fin (Rq.ofInt 0))

/-- A statevector: flattened amplitude list (one slot per computational
basis index) plus the `qml.math.is_abstract` flag telling whether the
tensor is a tracer of a differentiable-tracing context. -/
structure QState where
  amps : List Flt
  abstract : Bool
deriving DecidableEq, Repr

/-- Modelled from the spec: `qml.math.norm(state)` (external collaborator):
the 2-norm of the amplitude list. -/
def qnorm (st : QState) : Flt := Flt.sqrt (normSqL st.amps)

/-- Shots specification: absent (analytic) or a partitioned list of
per-partition shot counts (`Shots.__iter__` order).  A plain integer shot
count is the one-partition list.  `total_shots` is `None` exactly in the
analytic case.  `_FlexShots` values (which may hold zero-shot partitions)
reuse the `finite` constructor, since the list model already admits zeros. -/
inductive ShotsSpec where
  | analytic
  | finite (counts : List Nat)
deriving DecidableEq, Repr

/-- The `Shots.total_shots` attribute: `None` when analytic, else the sum
over partitions. -/
def ShotsSpec.total_shots : ShotsSpec → Option Nat
  | .analytic => none
  | .finite l => some (l.foldl (· + ·) 0)

/-- The `Shots.has_partitioned_shots` attribute: more than one partition. -/
def ShotsSpec.has_partitioned_shots : ShotsSpec → Bool
  | .analytic => false
  | .finite l => 2 ≤ l.length

/-- Shots class that allows zero shots (`_FlexShots`): built from a raw
list of per-partition counts. -/
def _FlexShots (l : List Nat) : ShotsSpec := .finite l

/-- Process-global mutable randomness: the stream of draws consumed by the
global numpy generator (`np.random`, also used by mid-circuit measurement
collapse, which receives no explicit generator), with a cursor counting how
many draws have been consumed, plus the operating-system entropy consulted
when `default_rng` is called without a seed. -/
structure World where
  npStream : Nat → Nat
  npCount : Nat
  entropy : Nat → Nat

/-- Consume one draw from the process-global generator. -/
def npDraw (w : World) : Nat × World :=
  (w.npStream w.npCount, { w with npCount := w.npCount + 1 })

/-- Modelled from the spec: `np.random.binomial(s, p)` (external numpy
call on the process-global generator).  The draw always consumes one unit
of global generator state; the extreme probabilities 0 and 1 give
deterministic values, any other probability gives a stream-dependent
value in `0..s`. -/
def npBinomial (s : Nat) (p : Flt) (w : World) : Nat × World :=
  let (x, w') := npDraw w
  match p with
  | .fin q => (if q.le (Rq.ofInt 0) then 0
               else if (Rq.ofInt 1).le q then s
               else x % (s + 1), w')
  | .nan => (0, w')

/-- Draw one binomial per shot partition (the list comprehension in
`_postselection_postprocess`). -/
def drawBinomials (l : List Nat) (p : Flt) (w : World) : List Nat × World :=
  match l with
  | [] => ([], w)
  | s :: rest =>
      let (v, w') := npBinomial s p w
      let (vs, w'') := drawBinomials rest p w'
      (v :: vs, w'')

/-- Update state after projector is applied (`_postselection_postprocess`).
Faithful to the source: (1) a batched state raises at once, before the norm
is even computed and before the global generator is consulted (the returned
`World` is the input one); (2) a norm numerically indistinguishable from
zero is snapped to exactly 0 outside tracing contexts; (3) with finite
shots, the per-partition shot counts are re-drawn through the
process-global binomial with success probability the squared (possibly
snapped) norm, unless the norm is abstract; (4) the state is divided by the
norm, so a snapped norm yields an all-`nan` state and a normal return. -/
def _postselection_postprocess (st : QState) (is_state_batched : Bool)
    (shots : ShotsSpec) (w : World) :
    Except String (QState × ShotsSpec) × World :=
  if is_state_batched then
    (.error ("Cannot postselect on circuits with broadcasting. Use the " ++
      "qml.transforms.broadcast_expand transform to split a broadcasted " ++
      "tape into multiple non-broadcasted tapes before executing if " ++
      "postselection is used."), w)
  else
    let norm0 := qnorm st
    let norm := if !st.abstract && Flt.allcloseZero norm0 then Flt.fin (Rq.ofInt 0) else norm0
    match shots with
    | .analytic =>
        (.ok ({ st with amps := st.amps.map (fun a => a.div norm) }, ShotsSpec.analytic), w)
    | .finite l =>
        if st.abstract then
          (.ok ({ st with amps := st.amps.map (fun a => a.div norm) }, _FlexShots l), w)
        else
          let (l', w') := drawBinomials l (Flt.sq norm) w
          (.ok ({ st with amps := st.amps.map (fun a => a.div norm) }, _FlexShots l'), w')

/-- Outcome dictionary built during evolution: maps a mid-circuit
measurement hash to its realized classical bit for the current trial
(`measurement_values` in `get_final_state`). -/
abbrev MDict := List (Nat × Bool)

/-- Dictionary lookup (first binding wins; insertion keeps keys unique). -/
def dlookup (d : MDict) (h : Nat) : Option Bool :=
  match d with
  | [] => none
  | (k, v) :: rest => if k = h then some v else dlookup rest h

/-- Dictionary insertion with Python `dict` semantics (overwrite). -/
def dictInsert (d : MDict) (h : Nat) (b : Bool) : MDict :=
  match d with
  | [] => [(h, b)]
  | (k, v) :: rest => if k = h then (k, b) :: rest else (k, v) :: dictInsert rest h b

/-- An operation without classical control.  Gates carry their expanded
full-state matrix, state preparations the prepared amplitudes; both carry
their broadcasting batch size (`op.batch_size`, an optional integer).
Mid-circuit measurements are identified by the hash of the measurement
instance; projectors keep the listed computational basis indices. -/
inductive SimpleOp where
  | gate (matrix : List (List Flt)) (batch_size : Option Nat)
  | statePrep (amps : List Flt) (batch_size : Option Nat)
  | midMeasure (hash : Nat) (wire : Nat)
  | projector (keep : List Nat)
deriving DecidableEq, Repr

/-- The `op.batch_size` attribute. -/
def SimpleOp.batchSize : SimpleOp → Option Nat
  | .gate _ bs => bs
  | .statePrep _ bs => bs
  | .midMeasure _ _ => none
  | .projector _ => none

/-- A circuit operation: either a plain operation or a `Conditional`
carrying the hash of the guarding mid-circuit measurement
(`op.meas_val.measurements[0].hash`) and the wrapped operation
(`op.then_op`). -/
inductive Op where
  | simple (op : SimpleOp)
  | conditional (measHash : Nat) (then_op : SimpleOp)
deriving DecidableEq, Repr

/-- Bit of computational basis index `i` on wire `wire` (little-endian). -/
def bitAt (i wire : Nat) : Bool := (i / 2 ^ wire) % 2 = 1

/-- Map with the element index (kernel-computable). -/
def mapIdxA (f : Nat → α → β) : Nat → List α → List β
  | _, [] => []
  | i, a :: t => f i a :: mapIdxA f (i + 1) t

/-- Sum of a float list. -/
def sumFlt (l : List Flt) : Flt := l.foldl Flt.add (.fin (Rq.ofInt 0))

/-- Matrix-vector contraction of a gate matrix against the state. -/
def applyGate (m : List (List Flt)) (amps : List Flt) : List Flt :=
  m.map (fun row => sumFlt (List.zipWith Flt.mul row amps))

/-- Zero every amplitude whose basis index is not kept by the projector. -/
def projectAmps (keep : List Nat) (amps : List Flt) : List Flt :=
  mapIdxA (fun i a => if keep.contains i then a else Flt.fin (Rq.ofInt 0)) 0 amps

/-- Born probability of outcome 1 on a wire: the squared norm of the
1-branch of a (normalized) state. -/
def prob1 (amps : List Flt) (wire : Nat) : Flt :=
  normSqL (mapIdxA (fun i a => if bitAt i wire then a else Flt.fin (Rq.ofInt 0)) 0 amps)

/-- Modelled from the spec: the sample drawn by mid-circuit measurement
collapse (`apply_mid_measure` in `apply_operation.py`, not in the source
tree).  It receives no generator argument, so the draw consumes the
process-global stream; extreme probabilities are deterministic. -/
def mcmDraw (p : Flt) (w : World) : Bool × World :=
  let (x, w') := npDraw w
  match p with
  | .fin q => (if q.le (Rq.ofInt 0) then false
               else if (Rq.ofInt 1).le q then true
               else x % 2 = 1, w')
  | .nan => (false, w')

/-- Project onto the measured branch and renormalize (the collapsed state
after a mid-circuit measurement). -/
def collapseAmps (amps : List Flt) (wire : Nat) (b : Bool) : List Flt :=
  let proj := mapIdxA (fun i a => if bitAt i wire = b then a else Flt.fin (Rq.ofInt 0)) 0 amps
  let nrm := Flt.sqrt (normSqL proj)
  proj.map (fun a => a.div nrm)

/-- Result of applying one operation: a new state, and for mid-circuit
measurements also the realized outcome bit. -/
inductive ApplyOut where
  | plain (st : QState)
  | withSample (st : QState) (outcome : Bool)

/-- The state component of an application result. -/
def ApplyOut.state : ApplyOut → QState
  | .plain s => s
  | .withSample s _ => s

/-- Modelled from the spec: `apply_operation` (`apply_operation.py` is not
in the source tree).  A gate contracts its matrix against the state; a
state preparation replaces the amplitudes; a projector zeroes the
non-selected amplitudes (renormalization is the driver's job); a
mid-circuit measurement raises on batched states, otherwise collapses the
state according to the Born rule, drawing the outcome from the
process-global generator (it receives no explicit one). -/
def apply_operation (op : SimpleOp) (st : QState) (is_state_batched : Bool)
    (w : World) : Except String ApplyOut × World :=
  match op with
  | .gate m _ => (.ok (.plain { st with amps := applyGate m st.amps }), w)
  | .statePrep v _ => (.ok (.plain { st with amps := v }), w)
  | .projector keep => (.ok (.plain { st with amps := projectAmps keep st.amps }), w)
  | .midMeasure _ wire =>
      if is_state_batched then
        (.error "MidMeasureMP cannot be applied to batched states.", w)
      else
        let (b, w') := mcmDraw (prob1 st.amps wire) w
        (.ok (.withSample { st with amps := collapseAmps st.amps wire b } b), w')

/-- Resolution of one operation of the loop of `get_final_state` against
the running outcome dictionary: a `Conditional` whose guard hash is absent
raises `KeyError`; a false guard skips the operation (`continue`); a true
guard substitutes the wrapped operation. -/
def gfs_resolve (op : Op) (d : MDict) : Except String (Option SimpleOp) :=
  match op with
  | .simple sop => .ok (some sop)
  | .conditional h t =>
      match dlookup d h with
      | none => .error ("Measurement key " ++ toString h ++ " not found.")
      | some b => if b then .ok (some t) else .ok none

/-- One applied step of the loop of `get_final_state`: apply the
(resolved) operation, record a mid-circuit measurement outcome under its
hash, run `_postselection_postprocess` after a projector (updating the
circuit shots), and update `is_state_batched` by disjunction with the
batch flag of the applied operation. -/
def gfs_step (sop : SimpleOp) (st : QState) (f : Bool) (d : MDict)
    (sh : ShotsSpec) (w : World) :
    Except String (QState × Bool × MDict) × ShotsSpec × World :=
  match apply_operation sop st f w with
  | (.error e, w') => (.error e, sh, w')
  | (.ok out, w') =>
      let st1 := out.state
      let d1 := match sop, out with
        | .midMeasure h _, .withSample _ b => dictInsert d h b
        | _, _ => d
      match sop with
      | .projector _ =>
          match _postselection_postprocess st1 f sh w' with
          | (.error e, w'') => (.error e, sh, w'')
          | (.ok (st2, sh2), w'') => (.ok (st2, f || sop.batchSize.isSome, d1), sh2, w'')
      | _ => (.ok (st1, f || sop.batchSize.isSome, d1), sh, w')

/-- The operation loop of `get_final_state`, threading the state, the
batching flag, the outcome dictionary, the (mutable) circuit shots and the
process-global generator. -/
def gfs_loop : List Op → QState → Bool → MDict → ShotsSpec → World →
    Except String (QState × Bool × MDict) × ShotsSpec × World
  | [], st, f, d, sh, w => (.ok (st, f, d), sh, w)
  | op :: rest, st, f, d, sh, w =>
      match gfs_resolve op d with
      | .error e => (.error e, sh, w)
      | .ok none => gfs_loop rest st f d sh w
      | .ok (some sop) =>
          match gfs_step sop st f d sh w with
          | (.error e, sh', w') => (.error e, sh', w')
          | (.ok (st', f', d'), sh', w') => gfs_loop rest st' f' d' sh' w'

/-- A measurement specification.  Expectations carry the diagonal of their
observable in the computational basis (enough for the statistic contract);
sample, counts and variance measurements over a mid-circuit measurement
value carry the hash of the referenced measurement
(`mp.mv.measurements[0].hash`); classical-shadow measurements carry no
payload the core reads. -/
inductive MP where
  | expectationMP (eigs : List Flt)
  | probabilityMP
  | sampleMP (mvHash : Nat)
  | countsMP (mvHash : Nat)
  | varianceMP (mvHash : Nat)
  | classicalShadowMP
  | shadowExpvalMP
deriving DecidableEq, Repr

/-- The `isinstance(m, (CountsMP, SampleMP, VarianceMP))` test. -/
def MP.isSampleLike : MP → Bool
  | .sampleMP _ => true
  | .countsMP _ => true
  | .varianceMP _ => true
  | _ => false

/-- The Python class name of a measurement (used in error messages). -/
def MP.className : MP → String
  | .expectationMP _ => "ExpectationMP"
  | .probabilityMP => "ProbabilityMP"
  | .sampleMP _ => "SampleMP"
  | .countsMP _ => "CountsMP"
  | .varianceMP _ => "VarianceMP"
  | .classicalShadowMP => "ClassicalShadowMP"
  | .shadowExpvalMP => "ShadowExpvalMP"

/-- The `isinstance(m, (ClassicalShadowMP, ShadowExpvalMP))` test. -/
def MP.isShadow : MP → Bool
  | .classicalShadowMP => true
  | .shadowExpvalMP => true
  | _ => false

/-- The `isinstance(m, (ExpectationMP, ProbabilityMP))` test of the
analytic branch of the gathering loop. -/
def MP.isAnalyticSupported : MP → Bool
  | .expectationMP _ => true
  | .probabilityMP => true
  | _ => false

/-- The value of one measurement: a scalar statistic, a vector statistic
(probabilities, array-valued outputs), the two-outcome counts dictionary,
or an array of per-trial bits. -/
inductive MeasResult where
  | scalar (x : Flt)
  | vector (xs : List Flt)
  | countsDict (n0 n1 : Nat)
  | bitArray (bs : List Bool)
deriving DecidableEq, Repr

/-- The value returned by `measure_final_state`: a bare value for a
single-measurement circuit, a tuple over measurements, or (partitioned
finite shots only) a tuple over partitions of tuples over measurements. -/
inductive Result where
  | single (r : MeasResult)
  | multiple (rs : List MeasResult)
  | nested (rss : List (List MeasResult))
deriving DecidableEq, Repr

/-- A circuit: operations, measurement specifications, shots, the number
of operated wires (`op_wires`), the number of declared wires (`wires`,
at least `op_wires`) and the content hash (`circuit.hash`). -/
structure Circuit where
  ops : List Op
  measurements : List MP
  shots : ShotsSpec
  op_wires : Nat
  wires : Nat
  hash : Nat
deriving DecidableEq, Repr

/-- Modelled from the spec: `QuantumScript.map_to_standard_wires` is not
in the source tree.  The spec states circuits are immutable once
constructed and that derived copies are made for sub-simulations, so
canonicalization yields a derived copy of the circuit; embedded circuits
already use standard wire labels, so the copied content is unchanged. -/
def map_to_standard_wires (c : Circuit) : Circuit := c

/-- The all-zeros basis state on `n` wires. -/
def unitState (n : Nat) : List Flt :=
  (List.range (2 ^ n)).map
    (fun i => if i = 0 then Flt.fin (Rq.ofInt 1) else Flt.fin (Rq.ofInt 0))

/-- Modelled from the spec: `create_initial_state`
(`initialize_state.py` is not in the source tree): the prepared state
when a state-preparation operator is given, the all-zeros state
otherwise; the abstractness of the tensor follows the interface. -/
def create_initial_state (numWires : Nat) (prep : Option (List Flt × Option Nat))
    (abstract : Bool) : QState :=
  match prep with
  | some (v, _) => { amps := v, abstract := abstract }
  | none => { amps := unitState numWires, abstract := abstract }

/-- The optional leading state-preparation operator of a circuit
(`circuit[0]` when it is a `StatePrepBase`). -/
def circuitPrep (c : Circuit) : Option (List Flt × Option Nat) :=
  match c.ops with
  | .simple (.statePrep v bs) :: _ => some (v, bs)
  | _ => none

/-- The operations after the optional state preparation
(`circuit.operations[bool(prep):]`). -/
def circuitRestOps (c : Circuit) : List Op :=
  match c.ops with
  | .simple (.statePrep _ _) :: rest => rest
  | ops => ops

/-- The initial batching flag of `get_final_state`:
`bool(prep and prep.batch_size is not None)`. -/
def initial_is_state_batched (c : Circuit) : Bool :=
  match circuitPrep c with
  | some (_, bs) => bs.isSome
  | none => false

/-- One zero-padding step for a measured-but-unoperated wire
(`qml.math.stack([state, zeros_like(state)], axis=-1)` flattened). -/
def padWithZeros (amps : List Flt) : List Flt :=
  amps.flatMap (fun a => [a, Flt.fin (Rq.ofInt 0)])

/-- Iterated zero padding (one step per unoperated declared wire). -/
def padState : Nat → List Flt → List Flt
  | 0, amps => amps
  | k + 1, amps => padState k (padWithZeros amps)

/-- The body of `get_final_state` after canonicalization: initialize the
state, run the operation loop, pad unoperated wires, and return the final
local circuit (whose `_shots` may have been clipped by post-selection)
alongside the result and the global generator. -/
def get_final_state_core (c : Circuit) (abstract : Bool) (w : World) :
    Except String (QState × Bool × MDict) × Circuit × World :=
  let st0 := create_initial_state c.op_wires (circuitPrep c) abstract
  match gfs_loop (circuitRestOps c) st0 (initial_is_state_batched c) [] c.shots w with
  | (.error e, sh', w') => (.error e, { c with shots := sh' }, w')
  | (.ok (st, f, mv), sh', w') =>
      (.ok ({ st with amps := padState (c.wires - c.op_wires) st.amps }, f, mv),
        { c with shots := sh' }, w')

/-- Get the final state that results from executing the given quantum
script (`get_final_state`): canonicalize to a derived copy, then run the
core.  The returned circuit is the local (derived) one. -/
def get_final_state (c : Circuit) (abstract : Bool) (w : World) :
    Except String (QState × Bool × MDict) × Circuit × World :=
  get_final_state_core (map_to_standard_wires c) abstract w

/-- A store of circuit objects: Python object identity is modelled as an
index into the store, so that mutation of one object is observable by
every holder of its reference. -/
abbrev CircuitStore := List Circuit

/-- Store-level `get_final_state`, making object identity explicit: the
caller passes a reference; canonicalization allocates a derived copy
(per the spec model of `map_to_standard_wires`), the core runs on the
copy, and the final local circuit (with possibly clipped shots) is
written back to the copy's slot — never to the caller's slot. -/
def get_final_state_st (σ : CircuitStore) (r : Nat) (abstract : Bool) (w : World) :
    Except String (QState × Bool × MDict) × CircuitStore × World :=
  match σ.get? r with
  | none => (.error "invalid circuit reference", σ, w)
  | some c =>
      let c' := map_to_standard_wires c
      match get_final_state_core c' abstract w with
      | (res, cF, w') => (res, (σ ++ [c']).set σ.length cF, w')

/-- Modelled from the spec / `measure.py` (not in the source tree): the
analytic statistic of one measurement computed directly from the state
amplitudes — the expectation contracts the squared amplitudes against the
observable diagonal, the probability measurement returns the squared
amplitudes.  The spec assigns no analytic statistic to sample-like
measurements (they never reach this path in the properties below); the
array-valued shadow measurements are modelled as a placeholder vector. -/
def measureMP (mp : MP) (st : QState) : MeasResult :=
  match mp with
  | .expectationMP eigs =>
      .scalar (sumFlt (List.zipWith (fun a e => (a.mul a).mul e) st.amps eigs))
  | .probabilityMP => .vector (st.amps.map (fun a => a.mul a))
  | .classicalShadowMP => .vector [Flt.fin (Rq.ofInt 0)]
  | .shadowExpvalMP => .vector [Flt.fin (Rq.ofInt 0)]
  | .sampleMP _ => .scalar Flt.nan
  | .countsMP _ => .scalar Flt.nan
  | .varianceMP _ => .scalar Flt.nan

/-- Modelled from the spec: numpy `default_rng(seed)` — with a seed, a
pure stream determined by the seed alone; without one, a fresh generator
drawing on operating-system entropy (the `World.entropy` stream). -/
def default_rng (seed : Option Nat) (w : World) : Nat → Nat :=
  match seed with
  | some s => fun i => (s + 1) * (i + 1) % 2147483647
  | none => w.entropy

/-- The value returned by `measure_with_samples`: a list over measurements
when shots are not partitioned, a list over partitions of lists over
measurements when they are (this is the shape the tail of
`measure_final_state` consumes). -/
inductive MwsRes where
  | meas (rs : List MeasResult)
  | parts (pss : List (List MeasResult))

/-- One sampled statistic: the drawn sample bits themselves. -/
def sampledResult (rng : Nat → Nat) (base s : Nat) : MeasResult :=
  .bitArray ((List.range s).map (fun i => rng (base + i) % 2 = 1))

/-- Modelled from the spec: `measure_with_samples` (`sampling.py` is not
in the source tree): draw shot-count many samples per partition from the
supplied seeded generator and compute each measurement's statistic from
the sample multiset.  The statistic computation is abstracted to the
drawn sample stream itself — the properties below concern only which
generator drives sampling and the result plumbing, never the statistical
value of a sampled estimate. -/
def measure_with_samples (mps : List MP) (_st : QState) (counts : List Nat)
    (rng : Nat → Nat) : MwsRes :=
  if counts.length ≤ 1 then
    let s := counts.headD 0
    .meas ((List.range mps.length).map (fun j => sampledResult rng (j * (s + 1)) s))
  else
    .parts ((List.range counts.length).map (fun k =>
      let s := counts.getD k 0
      (List.range mps.length).map
        (fun j => sampledResult rng ((k * mps.length + j) * (s + 1)) s)))

/-- Perform the measurements required by the circuit on the provided
state (`measure_final_state`): canonicalize, then either compute each
statistic analytically (a single-measurement circuit returns a bare
value, not a 1-tuple), or build a fresh seeded generator with
`default_rng(rng)` and sample (a single-measurement circuit with
partitioned shots returns the tuple of its per-partition values). -/
def measure_final_state (c : Circuit) (st : QState) (_is_state_batched : Bool)
    (rng : Option Nat) (w : World) : Result :=
  let c' := map_to_standard_wires c
  match c'.shots with
  | .analytic =>
      match c'.measurements with
      | [mp] => .single (measureMP mp st)
      | ms => .multiple (ms.map (fun mp => measureMP mp st))
  | .finite counts =>
      let rs := default_rng rng w
      match measure_with_samples c'.measurements st counts rs with
      | .meas out =>
          match c'.measurements with
          | [_] => .single (out.headD (.scalar Flt.nan))
          | _ => .multiple out
      | .parts pss =>
          match c'.measurements with
          | [_] => .multiple (pss.map (fun p => p.headD (.scalar Flt.nan)))
          | _ => .nested pss

/-- Returns true if the circuit contains a `MidMeasureMP` object among its
(top-level) operations, and false otherwise
(`has_mid_circuit_measurements`). -/
def has_mid_circuit_measurements (c : Circuit) : Bool :=
  c.ops.any (fun op => match op with
    | .simple (.midMeasure _ _) => true
    | _ => false)

/-- Enumeration with a starting index, keeping the indices of the elements
satisfying the predicate. -/
def idxWhereAux (p : α → Bool) : Nat → List α → List Nat
  | _, [] => []
  | i, a :: t => if p a then i :: idxWhereAux p (i + 1) t else idxWhereAux p (i + 1) t

/-- Indices of the elements satisfying a predicate, ascending
(`[i for i, m in enumerate(l) if p m]`). -/
def idxWhere (p : α → Bool) (l : List α) : List Nat := idxWhereAux p 0 l

/-- Indices of sample-like measurements (`idx_sampling_measurements`). -/
def idx_sampling_measurements (c : Circuit) : List Nat :=
  idxWhere MP.isSampleLike c.measurements

/-- Indices of non sample-like measurements (`idx_analytic_measurements`). -/
def idx_analytic_measurements (c : Circuit) : List Nat :=
  idxWhere (fun m => !MP.isSampleLike m) c.measurements

/-- Pop the listed positions from a measurement list, in the given order
(`for i in reversed(idx_sample): tmpcirc._measurements.pop(i)`). -/
def popByIdx (ms : List α) (idxs : List Nat) : List α :=
  idxs.foldl (fun acc i => acc.eraseIdx i) ms

/-- The shots-stripped derived copy built at the start of the
repeated-trial branch of `simulate`: `tmpcirc = circuit.copy()`,
`tmpcirc._shots = Shots(None)`, then pop every sample-like measurement in
reversed index order. -/
def strippedCircuit (c : Circuit) : Circuit :=
  { c with shots := ShotsSpec.analytic,
           measurements := popByIdx c.measurements (idx_sampling_measurements c).reverse }

/-- Python iteration over a per-trial measurement result, as performed by
`zip(analytic_meas, tmpmeas)`: a tuple yields its elements; a bare array
yields its entries (as scalars); a bare counts dictionary yields its keys;
a bare scalar (float or 0-d array) is not iterable and raises `TypeError`.
Partition-nested results never occur here (per-trial results are
analytic), so they are mapped to the same `TypeError`. -/
def resultIter : Result → Except String (List MeasResult)
  | .multiple rs => .ok rs
  | .single (.vector xs) => .ok (xs.map MeasResult.scalar)
  | .single (.bitArray bs) =>
      .ok (bs.map (fun b => MeasResult.scalar (.fin (Rq.ofInt (if b then 1 else 0)))))
  | .single (.countsDict _ _) =>
      .ok [MeasResult.scalar (.fin (Rq.ofInt 0)), MeasResult.scalar (.fin (Rq.ofInt 1))]
  | .single (.scalar _) => .error "TypeError: zip argument must support iteration"
  | .nested _ => .error "TypeError: zip argument must support iteration"

/-- The running accumulator of the trial loop of `simulate`: after the
first trial it is the bare per-trial result object; after any later trial
it is the list built by the comprehension. -/
inductive AnalyticAcc where
  | res (r : Result)
  | lst (ms : List MeasResult)
deriving Repr

/-- Python iteration over the accumulator (a list iterates as itself). -/
def accIter : AnalyticAcc → Except String (List MeasResult)
  | .res r => resultIter r
  | .lst ms => .ok ms

/-- Element-wise addition `m + t` of two measurement values of the same
kind (numpy adds arrays element-wise).  Mismatched kinds cannot occur
across trials of one fixed circuit and are mapped to an invalid scalar. -/
def MeasResult.add : MeasResult → MeasResult → MeasResult
  | .scalar a, .scalar b => .scalar (a.add b)
  | .vector xs, .vector ys => .vector (List.zipWith Flt.add xs ys)
  | _, _ => .scalar Flt.nan

/-- Numeric measurement values (the ones Python can divide by an int). -/
def MeasResult.isNumeric : MeasResult → Bool
  | .scalar _ => true
  | .vector _ => true
  | _ => false

/-- The division `m / circuit.shots.total_shots` of the gathering loop:
element-wise over numeric values; dividing by `None` or dividing a
non-numeric value raises `TypeError`. -/
def MeasResult.divShots : MeasResult → Option Nat → Except String MeasResult
  | _, none => .error "TypeError: unsupported operand types for division"
  | .scalar a, some n => .ok (.scalar (a.div (.fin (Rq.ofInt n))))
  | .vector xs, some n => .ok (.vector (xs.map (fun a => a.div (.fin (Rq.ofInt n)))))
  | _, some _ => .error "TypeError: unsupported operand types for division"

/-- The `Counter` accumulated over the per-trial outcome dictionaries at
the hash of a referenced mid-circuit measurement: `Counter.update(d)` adds
the boolean values, so the count at `sha` is the number of trials whose
dictionary realized the bit as true (absent keys contribute nothing). -/
def counterOf (sha : Nat) (dicts : List MDict) : Nat :=
  dicts.foldl (fun acc d => acc + (match dlookup d sha with
    | some true => 1
    | _ => 0)) 0

/-- The per-trial realized bits `[dct[sha] for dct in mcm_meas]` in trial
order; a trial dictionary missing the hash raises `KeyError`. -/
def collectBits (sha : Nat) (dicts : List MDict) : Except String (List Bool) :=
  match dicts with
  | [] => .ok []
  | d :: rest =>
      match dlookup d sha with
      | none => .error ("KeyError: " ++ toString sha)
      | some b =>
          match collectBits sha rest with
          | .error e => .error e
          | .ok bs => .ok (b :: bs)

/-- A 0-1 bit as a rational. -/
def boolToRq (b : Bool) : Rq := Rq.ofInt (if b then 1 else 0)

/-- Modelled from numpy semantics: `qml.math.var` of a 0-1 array is the
population variance (mean of squared deviations, zero delta degrees of
freedom); the variance of the empty array is `nan`. -/
def npVar (bs : List Bool) : Flt :=
  match bs with
  | [] => Flt.nan
  | _ =>
      let n : Rq := Rq.ofInt bs.length
      let mean : Rq := (bs.foldl (fun acc b => acc.add (boolToRq b)) (Rq.ofInt 0)).div n
      let sq := bs.foldl
        (fun acc b => acc.add (((boolToRq b).sub mean).mul ((boolToRq b).sub mean)))
        (Rq.ofInt 0)
      .fin (sq.div n)

/-- The unsupported-measurement error message of the gathering loops. -/
def unsupportedMsg (mp : MP) : String :=
  "Native mid-circuit measurement mode does not support " ++ mp.className ++
    " measurements."

/-- The analytic loop of `gather_native_mid_circuit_measurements`:
`for i, m in zip(idx_analytic, analytic_meas)` — normalize expectation and
probability values by the total shot count, raise on any other kind. -/
def gatherAnalytic (c : Circuit) (t : Option Nat) :
    List (Nat × MeasResult) → List (Option MeasResult) →
    Except String (List (Option MeasResult))
  | [], nm => .ok nm
  | (i, m) :: rest, nm =>
      match c.measurements.get? i with
      | none => .error "IndexError: list index out of range"
      | some mp =>
          if mp.isAnalyticSupported then
            match m.divShots t with
            | .error e => .error e
            | .ok v => gatherAnalytic c t rest (nm.set i (some v))
          else .error (unsupportedMsg mp)

/-- The sample loop of `gather_native_mid_circuit_measurements`:
`for i in idx_sample` — counts produce the two-outcome dictionary from the
trial counter, samples the ordered per-trial bit array, variances the
variance of that array; any other kind raises. -/
def gatherSample (c : Circuit) (dicts : List MDict) :
    List Nat → List (Option MeasResult) → Except String (List (Option MeasResult))
  | [], nm => .ok nm
  | i :: rest, nm =>
      match c.measurements.get? i with
      | none => .error "IndexError: list index out of range"
      | some mp =>
          match mp with
          | .countsMP sha =>
              gatherSample c dicts rest
                (nm.set i (some (.countsDict (dicts.length - counterOf sha dicts)
                  (counterOf sha dicts))))
          | .sampleMP sha =>
              match collectBits sha dicts with
              | .error e => .error e
              | .ok bs => gatherSample c dicts rest (nm.set i (some (.bitArray bs)))
          | .varianceMP sha =>
              match collectBits sha dicts with
              | .error e => .error e
              | .ok bs => gatherSample c dicts rest (nm.set i (some (.scalar (npVar bs))))
          | _ => .error (unsupportedMsg mp)

/-- Gathers and normalizes the results of native mid-circuit measurement
runs (`gather_native_mid_circuit_measurements`): iterate the accumulated
analytic results (Python `zip` semantics, see `resultIter`), run the
analytic loop over `zip(idx_analytic, analytic_meas)` on the
`[None] * len(measurements)` slot list, then the sample loop. -/
def gather_native_mid_circuit_measurements (c : Circuit) (acc : AnalyticAcc)
    (mcm_meas : List MDict) : Except String (List (Option MeasResult)) :=
  match accIter acc with
  | .error e => .error e
  | .ok ms =>
      match gatherAnalytic c c.shots.total_shots
          ((idx_analytic_measurements c).zip ms)
          (List.replicate c.measurements.length none) with
      | .error e => .error e
      | .ok nm1 => gatherSample c mcm_meas (idx_sampling_measurements c) nm1

/-- Simulate a single quantum script with native mid-circuit measurements
(`simulate_native_mcm`): reject a circuit that itself carries shots, then
run `get_final_state` once and `measure_final_state` once, returning the
measurement results together with the trial's outcome dictionary. -/
def simulate_native_mcm (c : Circuit) (rng : Option Nat) (abstract : Bool)
    (w : World) : Except String (Result × MDict) × World :=
  match c.shots.total_shots with
  | some n =>
      (.error ("Invalid circuit.shots.total_shots value " ++ toString n ++
        "; only None is supported."), w)
  | none =>
      match get_final_state c abstract w with
      | (.error e, _, w') => (.error e, w')
      | (.ok (st, f, mv), _, w') =>
          (.ok (measure_final_state c st f rng w', mv), w')

/-- The accumulation loop of the repeated-trial branch of `simulate`
(`for _ in range(circuit.shots.total_shots - 1)`): run one more trial,
then rebuild the accumulator as `[m + t for m, t in zip(analytic_meas,
tmpmeas)]` (Python `zip` evaluates the iterability of both arguments and
stops at the shorter), and append the trial's outcome dictionary. -/
def trial_loop (tmp : Circuit) (rng : Option Nat) (abstract : Bool) :
    Nat → AnalyticAcc → List MDict → World →
    Except String (AnalyticAcc × List MDict) × World
  | 0, acc, dicts, w => (.ok (acc, dicts), w)
  | k + 1, acc, dicts, w =>
      match simulate_native_mcm tmp rng abstract w with
      | (.error e, w') => (.error e, w')
      | (.ok (tmpmeas, d), w') =>
          match accIter acc with
          | .error e => (.error e, w')
          | .ok ms =>
              match resultIter tmpmeas with
              | .error e => (.error e, w')
              | .ok ts =>
                  trial_loop tmp rng abstract k
                    (.lst (List.zipWith MeasResult.add ms ts)) (dicts ++ [d]) w'

/-- The whole trial phase of the repeated-trial branch of `simulate`: one
unconditional first trial, then `total_shots - 1` accumulation rounds. -/
def trial_phase (tmp : Circuit) (rng : Option Nat) (abstract : Bool)
    (total : Nat) (w : World) : Except String (AnalyticAcc × List MDict) × World :=
  match simulate_native_mcm tmp rng abstract w with
  | (.error e, w') => (.error e, w')
  | (.ok (r0, d0), w') => trial_loop tmp rng abstract (total - 1) (.res r0) [d0] w'

/-- The state cache optionally passed to `simulate`: a dictionary from a
circuit's content hash to the pre-measurement state. -/
abbrev Cache := List (Nat × QState)

/-- Cache insertion with Python `dict` semantics (overwrite). -/
def cacheInsert (d : Cache) (h : Nat) (st : QState) : Cache :=
  match d with
  | [] => [(h, st)]
  | (k, v) :: rest => if k = h then (k, st) :: rest else (k, v) :: cacheInsert rest h st

/-- The value returned by `simulate`: the `measure_final_state` result on
the single-pass path, the normalized slot list of
`gather_native_mid_circuit_measurements` on the repeated-trial path. -/
inductive ResultOut where
  | single_run (r : Result)
  | mcm_run (out : List (Option MeasResult))
deriving DecidableEq, Repr

/-- Simulate a single quantum script (`simulate`): when the circuit has
both a mid-circuit measurement and a non-`None` total shot count, build
the shots-stripped derived copy, run the trial phase and gather;
otherwise run `get_final_state` once, store the pre-measurement state in
the optional cache under the circuit hash, and run `measure_final_state`
once. -/
def simulate (c : Circuit) (rng : Option Nat) (abstract : Bool) (w : World)
    (state_cache : Option Cache) : Except String ResultOut × World × Option Cache :=
  let has_mcm := has_mid_circuit_measurements c
  let has_shots := c.shots.total_shots.isSome
  if has_mcm && has_shots then
    let tmpcirc := strippedCircuit c
    match trial_phase tmpcirc rng abstract (c.shots.total_shots.getD 0) w with
    | (.error e, w') => (.error e, w', state_cache)
    | (.ok (acc, dicts), w') =>
        match gather_native_mid_circuit_measurements c acc dicts with
        | .error e => (.error e, w', state_cache)
        | .ok out => (.ok (.mcm_run out), w', state_cache)
  else
    match get_final_state c abstract w with
    | (.error e, _, w') => (.error e, w', state_cache)
    | (.ok (st, f, _), _, w') =>
        let cache' := match state_cache with
          | some d => some (cacheInsert d c.hash st)
          | none => none
        (.ok (.single_run (measure_final_state c st f rng w')), w', cache')

/-- Whether a plain operation is a mid-circuit measurement. -/
def SimpleOp.isMidMeasure : SimpleOp → Bool
  | .midMeasure _ _ => true
  | _ => false

/-- Whether an operation mentions a mid-circuit measurement, including one
wrapped inside a `Conditional` (used to delimit the seed-deterministic
fragment: these are the operations whose application consumes the
process-global generator unconditionally or conditionally). -/
def Op.usesMidMeasure : Op → Bool
  | .simple sop => sop.isMidMeasure
  | .conditional _ t => t.isMidMeasure

/-- The element list of a tuple-shaped per-trial result (empty for the
bare shapes, which the accumulation theorems exclude). -/
def Result.toLists : Result → List MeasResult
  | .multiple rs => rs
  | _ => []

/-- Specification-side clean iteration of `n` independent trials: the list
of per-trial results and per-trial outcome dictionaries, in trial order,
with the same world threading as the source loop. -/
def n_trials_results (tmp : Circuit) (rng : Option Nat) (abstract : Bool) :
    Nat → World → Except String (List Result × List MDict) × World
  | 0, w => (.ok ([], []), w)
  | k + 1, w =>
      match simulate_native_mcm tmp rng abstract w with
      | (.error e, w') => (.error e, w')
      | (.ok (r, d), w') =>
          match n_trials_results tmp rng abstract k w' with
          | (.error e, w'') => (.error e, w'')
          | (.ok (rs, ds), w'') => (.ok (r :: rs, d :: ds), w'')

/-- Element-wise accumulation of per-trial tuple results onto a running
list (left fold, matching the source's accumulation order). -/
def sumOnto (ms0 : List MeasResult) (rs : List Result) : List MeasResult :=
  rs.foldl (fun acc r => List.zipWith MeasResult.add acc r.toLists) ms0

/-- Shorthand for a finite float literal. -/
def fq (n : Int) (d : Nat) : Flt := Flt.fin (Rq.mk' n d)

/-- A concrete world whose global generator yields the given stream, with
no draws consumed yet. -/
def mkWorld (f : Nat → Nat) : World :=
  { npStream := f, npCount := 0, entropy := fun _ => 0 }

/-- A concrete real rotation-like gate sending the zero state to the
amplitudes 3/5, 4/5 (all norms stay perfect squares). -/
def tiltGate : SimpleOp :=
  SimpleOp.gate [[fq 3 5, fq 4 5], [fq 4 5, fq (-3) 5]] none

/-- Concrete circuit: tilt, mid-circuit measurement, one sample
measurement of the mid-circuit value, two shots. -/
def sampleMcmCircuit : Circuit :=
  { ops := [Op.simple tiltGate, Op.simple (SimpleOp.midMeasure 5 0)],
    measurements := [MP.sampleMP 5],
    shots := ShotsSpec.finite [2], op_wires := 1, wires := 1, hash := 0 }

/-- Concrete circuit: a mid-circuit measurement and a single analytic
(expectation) terminal measurement, three shots. -/
def singleExpectationMcmCircuit : Circuit :=
  { ops := [Op.simple (SimpleOp.midMeasure 5 0)],
    measurements := [MP.expectationMP [fq 1 1, fq (-1) 1]],
    shots := ShotsSpec.finite [3], op_wires := 1, wires := 1, hash := 0 }

/-- Concrete circuit: a mid-circuit measurement, an expectation plus a
classical-shadow terminal measurement, two shots. -/
def shadowMcmCircuit : Circuit :=
  { ops := [Op.simple (SimpleOp.midMeasure 5 0)],
    measurements := [MP.expectationMP [fq 1 1, fq (-1) 1], MP.classicalShadowMP],
    shots := ShotsSpec.finite [2], op_wires := 1, wires := 1, hash := 0 }

/-- Concrete circuit: a mid-circuit measurement with every gatherable
measurement kind, four shots. -/
def gatherDemoCircuit : Circuit :=
  { ops := [Op.simple (SimpleOp.midMeasure 5 0)],
    measurements := [MP.expectationMP [fq 1 1, fq (-1) 1], MP.countsMP 5, MP.sampleMP 5,
                     MP.varianceMP 5, MP.probabilityMP],
    shots := ShotsSpec.finite [4], op_wires := 1, wires := 1, hash := 0 }

/-- Concrete circuit: a mid-circuit measurement with two analytic
terminal measurements, two shots. -/
def twoAnalyticMcmCircuit : Circuit :=
  { ops := [Op.simple (SimpleOp.midMeasure 5 0)],
    measurements := [MP.expectationMP [fq 1 1, fq (-1) 1], MP.probabilityMP],
    shots := ShotsSpec.finite [2], op_wires := 1, wires := 1, hash := 0 }

/-- Concrete circuit: tilt then postselect on the zero basis state, one
expectation measurement, four shots (its local copy gets clipped shots). -/
def postselectShotsCircuit : Circuit :=
  { ops := [Op.simple tiltGate, Op.simple (SimpleOp.projector [0])],
    measurements := [MP.expectationMP [fq 1 1, fq (-1) 1]],
    shots := ShotsSpec.finite [4], op_wires := 1, wires := 1, hash := 0 }

deriving instance DecidableEq for Except

/-- Dividing any float by the snapped zero norm gives `nan`. -/
theorem Flt.div_zero_eq_nan (a : Flt) : a.div (.fin (Rq.ofInt 0)) = .nan := by
  cases a <;> simp [Flt.div, Rq.isZero, Rq.ofInt]

/-- C3.  For every batched state, `_postselection_postprocess` fails at once
with the descriptive broadcasting error telling the caller to split the
broadcasted tape first; the result is this error for every state, every
shots value and every global-generator state, the returned global generator
is untouched (no binomial was drawn), and no division of the state has
taken place. -/
theorem postselect_batched_fails_fast (st : QState) (shots : ShotsSpec) (w : World) :
    _postselection_postprocess st true shots w =
      (.error ("Cannot postselect on circuits with broadcasting. Use the " ++
        "qml.transforms.broadcast_expand transform to split a broadcasted " ++
        "tape into multiple non-broadcasted tapes before executing if " ++
        "postselection is used."), w) := by
  rfl

/-- C4.  For every non-batched, non-abstract state whose norm is numerically
indistinguishable from zero, `_postselection_postprocess` returns normally
(no exception) with the norm snapped to exactly 0, so every amplitude of the
returned state is the invalid value `nan`. -/
theorem postselect_zero_norm_gives_nan_state (st : QState) (shots : ShotsSpec)
    (w : World) (habs : st.abstract = false)
    (hz : Flt.allcloseZero (qnorm st) = true) :
    ∃ sh' w', _postselection_postprocess st false shots w =
      (.ok ({ st with amps := st.amps.map (fun _ => Flt.nan) }, sh'), w') := by
  have hmap : st.amps.map (fun a => a.div (.fin (Rq.ofInt 0))) =
      st.amps.map (fun _ => Flt.nan) := by
    apply List.map_congr_left
    intro a _
    exact Flt.div_zero_eq_nan a
  unfold _postselection_postprocess
  simp only [habs, hz]
  cases shots with
  | analytic =>
      exact ⟨ShotsSpec.analytic, w, by simp [habs, hz, hmap]⟩
  | finite l =>
      refine ⟨_FlexShots (drawBinomials l (Flt.sq (Flt.fin (Rq.ofInt 0))) w).1,
        (drawBinomials l (Flt.sq (Flt.fin (Rq.ofInt 0))) w).2, ?_⟩
      simp [habs, hz, hmap]

/-- Witness for C4 at a concrete input: the two-amplitude zero state with
two shots; both hypotheses hold and the returned state is all-`nan`. -/
theorem postselect_zero_norm_gives_nan_state_witness :
    (({ amps := [Flt.fin (Rq.ofInt 0), Flt.fin (Rq.ofInt 0)], abstract := false } :
        QState).abstract = false) ∧
    (Flt.allcloseZero
      (qnorm { amps := [Flt.fin (Rq.ofInt 0), Flt.fin (Rq.ofInt 0)], abstract := false })
        = true) ∧
    ∃ sh' w', _postselection_postprocess
        { amps := [Flt.fin (Rq.ofInt 0), Flt.fin (Rq.ofInt 0)], abstract := false } false
        (ShotsSpec.finite [2])
        { npStream := fun _ => 0, npCount := 0, entropy := fun _ => 0 } =
      (.ok ({ amps := [Flt.nan, Flt.nan], abstract := false }, sh'), w') := by
  refine ⟨rfl, by decide, ?_⟩
  have h := postselect_zero_norm_gives_nan_state
    { amps := [Flt.fin (Rq.ofInt 0), Flt.fin (Rq.ofInt 0)], abstract := false }
    (ShotsSpec.finite [2])
    { npStream := fun _ => 0, npCount := 0, entropy := fun _ => 0 } rfl (by decide)
  obtain ⟨sh', w', hw⟩ := h
  exact ⟨sh', w', by simpa using hw⟩

/-- C5.  During the operation loop of `get_final_state`, a `Conditional`
operation raises `KeyError` exactly when its guard hash is absent from the
running outcome dictionary at that point; a present-but-false realized bit
skips the step as a no-op (state, flag, dictionary, shots and generator
all unchanged by the step), and a present-and-true realized bit makes the
step behave exactly as the bare wrapped operation. -/
theorem conditional_guard_resolution (h : Nat) (t : SimpleOp) (rest : List Op)
    (st : QState) (f : Bool) (d : MDict) (sh : ShotsSpec) (w : World) :
    (dlookup d h = none →
      gfs_loop (Op.conditional h t :: rest) st f d sh w =
        (.error ("Measurement key " ++ toString h ++ " not found."), sh, w)) ∧
    (dlookup d h = some false →
      gfs_loop (Op.conditional h t :: rest) st f d sh w =
        gfs_loop rest st f d sh w) ∧
    (dlookup d h = some true →
      gfs_loop (Op.conditional h t :: rest) st f d sh w =
        gfs_loop (Op.simple t :: rest) st f d sh w) := by
  refine ⟨?_, ?_, ?_⟩ <;> intro hd <;> simp [gfs_loop, gfs_resolve, hd]

/-- Witness for C5 at concrete inputs: the empty dictionary raises, the
false binding skips, the true binding applies the wrapped gate. -/
theorem conditional_guard_resolution_witness :
    (gfs_loop [Op.conditional 7 tiltGate] { amps := [fq 1 1, fq 0 1], abstract := false }
        false [] ShotsSpec.analytic (mkWorld fun _ => 0) =
      (.error ("Measurement key " ++ toString 7 ++ " not found."),
        ShotsSpec.analytic, mkWorld fun _ => 0)) ∧
    (gfs_loop [Op.conditional 7 tiltGate] { amps := [fq 1 1, fq 0 1], abstract := false }
        false [(7, false)] ShotsSpec.analytic (mkWorld fun _ => 0) =
      gfs_loop [] { amps := [fq 1 1, fq 0 1], abstract := false }
        false [(7, false)] ShotsSpec.analytic (mkWorld fun _ => 0)) ∧
    (gfs_loop [Op.conditional 7 tiltGate] { amps := [fq 1 1, fq 0 1], abstract := false }
        false [(7, true)] ShotsSpec.analytic (mkWorld fun _ => 0) =
      gfs_loop [Op.simple tiltGate] { amps := [fq 1 1, fq 0 1], abstract := false }
        false [(7, true)] ShotsSpec.analytic (mkWorld fun _ => 0)) := by
  refine ⟨?_, ?_, ?_⟩
  · exact (conditional_guard_resolution 7 tiltGate [] _ false [] _ _).1 rfl
  · exact (conditional_guard_resolution 7 tiltGate [] _ false [(7, false)] _ _).2.1 rfl
  · exact (conditional_guard_resolution 7 tiltGate [] _ false [(7, true)] _ _).2.2 rfl

/-- Flag update of one applied step: on success the outgoing
`is_state_batched` is the incoming one disjoined with whether the applied
operation has a batch dimension. -/
theorem gfs_step_flag (sop : SimpleOp) (st : QState) (f : Bool) (d : MDict)
    (sh : ShotsSpec) (w : World) (out : QState × Bool × MDict) (sh' : ShotsSpec)
    (w' : World) (hstep : gfs_step sop st f d sh w = (.ok out, sh', w')) :
    out.2.1 = (f || sop.batchSize.isSome) := by
  cases sop with
  | gate m bs =>
      simp [gfs_step, apply_operation] at hstep
      simp [← hstep.1, SimpleOp.batchSize]
  | statePrep v bs =>
      simp [gfs_step, apply_operation] at hstep
      simp [← hstep.1, SimpleOp.batchSize]
  | midMeasure hh wire =>
      cases f with
      | true => simp [gfs_step, apply_operation] at hstep
      | false =>
          rcases hd : mcmDraw (prob1 st.amps wire) w with ⟨b, w1⟩
          simp [gfs_step, apply_operation, hd] at hstep
          simp [← hstep.1, SimpleOp.batchSize]
  | projector keep =>
      rcases hp : _postselection_postprocess
          { st with amps := projectAmps keep st.amps } f sh w with ⟨pres, w2⟩
      cases pres with
      | error e =>
          simp [gfs_step, apply_operation, ApplyOut.state, hp] at hstep
      | ok q =>
          simp [gfs_step, apply_operation, ApplyOut.state, hp] at hstep
          simp [← hstep.1, SimpleOp.batchSize]

/-- Once the batching flag is true on entry to the loop, it is true in the
returned triple. -/
theorem gfs_loop_flag_mono (ops : List Op) :
    ∀ st d sh w out sh' w', gfs_loop ops st true d sh w = (.ok out, sh', w') →
      out.2.1 = true := by
  induction ops with
  | nil =>
      intro st d sh w out sh' w' hl
      simp [gfs_loop] at hl
      simp [← hl.1]
  | cons op rest ih =>
      intro st d sh w out sh' w' hl
      rcases hres : gfs_resolve op d with e | o
      · simp [gfs_loop, hres] at hl
      · cases o with
        | none =>
            simp only [gfs_loop, hres] at hl
            exact ih st d sh w out sh' w' hl
        | some sop =>
            rcases hs : gfs_step sop st true d sh w with ⟨sres, sh1, w1⟩
            cases sres with
            | error e => simp [gfs_loop, hres, hs] at hl
            | ok trip =>
                have hflag := gfs_step_flag sop st true d sh w trip sh1 w1 hs
                simp only [Bool.true_or] at hflag
                rcases trip with ⟨st1, f1, d1⟩
                simp only at hflag
                subst hflag
                simp only [gfs_loop, hres, hs] at hl
                exact ih st1 d1 sh1 w1 out sh' w' hl

/-- C6.  The `is_state_batched` flag of `get_final_state`: it starts true
exactly when the leading operation is a state preparation that is itself
batched; after every successfully applied operation it is the old flag
disjoined with whether the applied operation has a non-`None` batch size;
a skipped (false-guard) conditional leaves it untouched; and once true it
stays true through the loop and in the returned tuple. -/
theorem is_state_batched_monotone :
    (∀ c : Circuit, initial_is_state_batched c = true ↔
      ∃ v bs, c.ops.head? = some (Op.simple (SimpleOp.statePrep v bs)) ∧
        bs.isSome = true) ∧
    (∀ sop st f d sh w out sh' w', gfs_step sop st f d sh w = (.ok out, sh', w') →
      out.2.1 = (f || sop.batchSize.isSome)) ∧
    (∀ (h : Nat) t rest st f d sh w, dlookup d h = some false →
      gfs_loop (Op.conditional h t :: rest) st f d sh w =
        gfs_loop rest st f d sh w) ∧
    (∀ ops st d sh w out sh' w', gfs_loop ops st true d sh w = (.ok out, sh', w') →
      out.2.1 = true) ∧
    (∀ c ab w st f mv c' w', get_final_state c ab w = (.ok (st, f, mv), c', w') →
      initial_is_state_batched c = true → f = true) := by
  refine ⟨?_, ?_, ?_, ?_, ?_⟩
  · intro c
    unfold initial_is_state_batched circuitPrep
    rcases c with ⟨ops, ms, sh, ow, wi, ha⟩
    cases ops with
    | nil => simp
    | cons op rest =>
        cases op with
        | simple sop =>
            cases sop
            all_goals simp [Option.isSome_iff_exists]
            all_goals aesop
        | conditional hh t => simp
  · exact fun sop st f d sh w out sh' w' h => gfs_step_flag sop st f d sh w out sh' w' h
  · intro h t rest st f d sh w hd
    simp [gfs_loop, gfs_resolve, hd]
  · exact fun ops st d sh w out sh' w' h => gfs_loop_flag_mono ops st d sh w out sh' w' h
  · intro c ab w st f mv c' w' hg hinit
    simp only [get_final_state, get_final_state_core, map_to_standard_wires, hinit] at hg
    rcases hl : gfs_loop (circuitRestOps c)
        (create_initial_state c.op_wires (circuitPrep c) ab) true [] c.shots w
      with ⟨lres, sh1, w1⟩
    cases lres with
    | error e => simp [hl] at hg
    | ok trip =>
        have hmono := gfs_loop_flag_mono (circuitRestOps c) _ _ _ _ trip sh1 w1 hl
        rcases trip with ⟨st1, f1, d1⟩
        simp only at hmono
        simp [hl] at hg
        subst hmono
        exact hg.1.2.1.symm

/-- Witness for C6 at concrete inputs: a batched state preparation makes
the initial flag true; a batched gate step turns the flag on; a false
conditional guard skips; a circuit with a batched preparation returns a
true flag from `get_final_state`. -/
theorem is_state_batched_monotone_witness :
    (initial_is_state_batched
      { ops := [Op.simple (SimpleOp.statePrep [fq 1 1, fq 0 1] (some 2))],
        measurements := [], shots := ShotsSpec.analytic,
        op_wires := 1, wires := 1, hash := 0 } = true) ∧
    (∀ out sh' w', gfs_step (SimpleOp.gate [[fq 1 1]] (some 2))
        { amps := [fq 1 1], abstract := false } false [] ShotsSpec.analytic
        (mkWorld fun _ => 0) = (.ok out, sh', w') → out.2.1 = true) ∧
    (∃ st f mv c' w', get_final_state
        { ops := [Op.simple (SimpleOp.statePrep [fq 1 1, fq 0 1] (some 2))],
          measurements := [], shots := ShotsSpec.analytic,
          op_wires := 1, wires := 1, hash := 0 } false (mkWorld fun _ => 0) =
        (.ok (st, f, mv), c', w') ∧ f = true) := by
  refine ⟨?_, ?_, ?_⟩
  · exact (is_state_batched_monotone.1 _).mpr ⟨[fq 1 1, fq 0 1], some 2, rfl, rfl⟩
  · intro out sh' w' h
    have := is_state_batched_monotone.2.1 _ _ _ _ _ _ _ _ _ h
    simpa [SimpleOp.batchSize] using this
  · refine ⟨{ amps := [fq 1 1, fq 0 1], abstract := false }, true, [],
      { ops := [Op.simple (SimpleOp.statePrep [fq 1 1, fq 0 1] (some 2))],
        measurements := [], shots := ShotsSpec.analytic,
        op_wires := 1, wires := 1, hash := 0 },
      mkWorld fun _ => 0, rfl, ?_⟩
    exact is_state_batched_monotone.2.2.2.2
      { ops := [Op.simple (SimpleOp.statePrep [fq 1 1, fq 0 1] (some 2))],
        measurements := [], shots := ShotsSpec.analytic,
        op_wires := 1, wires := 1, hash := 0 } false (mkWorld fun _ => 0)
      { amps := [fq 1 1, fq 0 1], abstract := false } true []
      { ops := [Op.simple (SimpleOp.statePrep [fq 1 1, fq 0 1] (some 2))],
        measurements := [], shots := ShotsSpec.analytic,
        op_wires := 1, wires := 1, hash := 0 }
      (mkWorld fun _ => 0) rfl rfl

/-- C10.  When the circuit has both a mid-circuit measurement and a
non-`None` total shot count, `simulate` takes the repeated-trial branch
and leaves the passed state cache completely unchanged (every exit of
that branch returns the cache as given; the pre-measurement state is
written only on the single-pass branch). -/
theorem state_cache_untouched_in_mcm_mode (c : Circuit) (rng : Option Nat)
    (ab : Bool) (w : World) (cache : Option Cache)
    (hm : has_mid_circuit_measurements c = true)
    (hs : c.shots.total_shots.isSome = true) :
    (simulate c rng ab w cache).2.2 = cache := by
  unfold simulate
  rw [hm, hs]
  simp only [Bool.and_self, if_true]
  rcases h1 : trial_phase (strippedCircuit c) rng ab (c.shots.total_shots.getD 0) w
    with ⟨tres, w'⟩
  cases tres with
  | error e => simp
  | ok p =>
      rcases p with ⟨acc, dicts⟩
      rcases h2 : gather_native_mid_circuit_measurements c acc dicts with e | out
      all_goals simp [h2]

/-- Witness for C10 at a concrete input: the two-analytic-measurement
circuit in repeated-trial mode leaves the (initially empty) cache as it
was. -/
theorem state_cache_untouched_in_mcm_mode_witness :
    has_mid_circuit_measurements twoAnalyticMcmCircuit = true ∧
    twoAnalyticMcmCircuit.shots.total_shots.isSome = true ∧
    (simulate twoAnalyticMcmCircuit none false (mkWorld fun _ => 0)
      (some [])).2.2 = some [] := by
  exact ⟨rfl, rfl, state_cache_untouched_in_mcm_mode twoAnalyticMcmCircuit none false
    (mkWorld fun _ => 0) (some []) rfl rfl⟩

/-- C8.  The caller's circuit object is not modified by `get_final_state`:
in the store model of object identity, canonicalization allocates a
derived copy and the shots clipping writes target only that copy, so the
caller's slot holds the same circuit (shots specification included)
before and after the call. -/
theorem get_final_state_preserves_caller_circuit (σ : CircuitStore) (r : Nat)
    (ab : Bool) (w : World) (hr : r < σ.length) :
    ((get_final_state_st σ r ab w).2.1).get? r = σ.get? r := by
  unfold get_final_state_st
  rcases hg : σ.get? r with _ | c
  · exact absurd hr (by simpa using List.get?_eq_none.mp hg)
  · rcases hc : get_final_state_core (map_to_standard_wires c) ab w with ⟨res, cF, w'⟩
    simp only [hg, hc]
    have hne : σ.length ≠ r := Nat.ne_of_gt hr
    rw [List.get?_set_ne cF (σ ++ [map_to_standard_wires c]) hne]
    rw [List.get?_append hr]
    exact hg

/-- Witness for C8 at a concrete input: a one-element store holding a
postselecting shots-ful circuit (the one whose local copy does get its
shots clipped) still holds the original circuit at its slot afterwards. -/
theorem get_final_state_preserves_caller_circuit_witness :
    (0 < ([postselectShotsCircuit] : CircuitStore).length) ∧
    ((get_final_state_st [postselectShotsCircuit] 0 false
        (mkWorld fun _ => 0)).2.1).get? 0 =
      ([postselectShotsCircuit] : CircuitStore).get? 0 := by
  refine ⟨by decide, ?_⟩
  exact get_final_state_preserves_caller_circuit [postselectShotsCircuit]
    0 false (mkWorld fun _ => 0) (by decide)

/-- The state component of `_postselection_postprocess` does not depend on
the shots value or on the global generator (only the clipped shots and the
advanced generator do). -/
theorem psp_result_state (st : QState) (f : Bool) (sh1 sh2 : ShotsSpec)
    (w1 w2 : World) :
    ((_postselection_postprocess st f sh1 w1).1).map Prod.fst =
    ((_postselection_postprocess st f sh2 w2).1).map Prod.fst := by
  unfold _postselection_postprocess
  cases f with
  | true => rfl
  | false =>
      cases sh1 <;> cases sh2 <;> cases hab : st.abstract <;>
        simp [Except.map, hab]

/-- The payload of one applied non-measuring step does not depend on the
shots value or on the global generator. -/
theorem gfs_step_result_world_indep (sop : SimpleOp)
    (hnm : sop.isMidMeasure = false) (st : QState) (f : Bool) (d : MDict)
    (sh1 sh2 : ShotsSpec) (w1 w2 : World) :
    (gfs_step sop st f d sh1 w1).1 = (gfs_step sop st f d sh2 w2).1 := by
  cases sop with
  | gate m bs => rfl
  | statePrep v bs => rfl
  | midMeasure h wire => simp [SimpleOp.isMidMeasure] at hnm
  | projector keep =>
      have hps := psp_result_state { st with amps := projectAmps keep st.amps } f sh1 sh2 w1 w2
      rcases hp1 : _postselection_postprocess
          { st with amps := projectAmps keep st.amps } f sh1 w1 with ⟨p1, wa⟩
      rcases hp2 : _postselection_postprocess
          { st with amps := projectAmps keep st.amps } f sh2 w2 with ⟨p2, wb⟩
      rw [hp1, hp2] at hps
      simp only at hps
      cases p1 with
      | error e1 =>
          cases p2 with
          | error e2 =>
              simp [Except.map] at hps
              simp [gfs_step, apply_operation, ApplyOut.state, hp1, hp2, hps]
          | ok q2 => simp [Except.map] at hps
      | ok q1 =>
          cases p2 with
          | error e2 => simp [Except.map] at hps
          | ok q2 =>
              simp [Except.map] at hps
              simp [gfs_step, apply_operation, ApplyOut.state, hp1, hp2, hps]

/-- The result component of the operation loop does not depend on the
shots value or the global generator when no operation mentions a
mid-circuit measurement. -/
theorem gfs_loop_result_world_indep (ops : List Op)
    (hops : ∀ op ∈ ops, op.usesMidMeasure = false) :
    ∀ st f d sh1 sh2 w1 w2,
      (gfs_loop ops st f d sh1 w1).1 = (gfs_loop ops st f d sh2 w2).1 := by
  induction ops with
  | nil => intro st f d sh1 sh2 w1 w2; rfl
  | cons op rest ih =>
      intro st f d sh1 sh2 w1 w2
      have hop : op.usesMidMeasure = false := hops op (List.mem_cons_self op rest)
      have hrest : ∀ o ∈ rest, o.usesMidMeasure = false :=
        fun o ho => hops o (List.mem_cons_of_mem op ho)
      have hstep : ∀ sop : SimpleOp, sop.isMidMeasure = false →
          (gfs_loop (Op.simple sop :: rest) st f d sh1 w1).1 =
          (gfs_loop (Op.simple sop :: rest) st f d sh2 w2).1 := by
        intro sop hnm
        have hse := gfs_step_result_world_indep sop hnm st f d sh1 sh2 w1 w2
        rcases hs1 : gfs_step sop st f d sh1 w1 with ⟨r1, sha, wa⟩
        rcases hs2 : gfs_step sop st f d sh2 w2 with ⟨r2, shb, wb⟩
        rw [hs1, hs2] at hse
        simp only at hse
        subst hse
        cases r1 with
        | error e => simp [gfs_loop, gfs_resolve, hs1, hs2]
        | ok trip =>
            rcases trip with ⟨st', f', d'⟩
            simp only [gfs_loop, gfs_resolve, hs1, hs2]
            exact ih hrest st' f' d' sha shb wa wb
      cases op with
      | simple sop =>
          exact hstep sop (by simpa [Op.usesMidMeasure] using hop)
      | conditional h t =>
          rcases hd : dlookup d h with _ | b
          · simp [gfs_loop, gfs_resolve, hd]
          · cases b with
            | false =>
                simp only [gfs_loop, gfs_resolve, hd]
                exact ih hrest st f d sh1 sh2 w1 w2
            | true =>
                have ht : t.isMidMeasure = false := by
                  simpa [Op.usesMidMeasure] using hop
                have := hstep t ht
                simpa [gfs_loop, gfs_resolve, hd] using this

/-- Operations surviving the state-preparation split are operations of the
circuit. -/
theorem circuitRestOps_mem (c : Circuit) (op : Op) (h : op ∈ circuitRestOps c) :
    op ∈ c.ops := by
  unfold circuitRestOps at h
  rcases hops : c.ops with _ | ⟨o, rest⟩
  · rw [hops] at h; simp only at h; exact hops ▸ h
  · rw [hops] at h
    cases o with
    | simple sop =>
        cases sop with
        | statePrep v bs =>
            simp only at h
            exact hops ▸ List.mem_cons_of_mem _ h
        | gate m bs => simp only at h; exact hops ▸ h
        | midMeasure hh wi => simp only at h; exact hops ▸ h
        | projector keep => simp only at h; exact hops ▸ h
    | conditional hh t => simp only at h; exact hops ▸ h

/-- The result component of `get_final_state` does not depend on the
process-global generator when no operation mentions a mid-circuit
measurement. -/
theorem get_final_state_result_world_indep (c : Circuit) (ab : Bool)
    (hops : ∀ op ∈ c.ops, op.usesMidMeasure = false) (w1 w2 : World) :
    (get_final_state c ab w1).1 = (get_final_state c ab w2).1 := by
  have hrest : ∀ op ∈ circuitRestOps c, op.usesMidMeasure = false :=
    fun op h => hops op (circuitRestOps_mem c op h)
  have hl := gfs_loop_result_world_indep (circuitRestOps c) hrest
    (create_initial_state c.op_wires (circuitPrep c) ab)
    (initial_is_state_batched c) [] c.shots c.shots w1 w2
  unfold get_final_state get_final_state_core map_to_standard_wires
  rcases h1 : gfs_loop (circuitRestOps c)
      (create_initial_state c.op_wires (circuitPrep c) ab)
      (initial_is_state_batched c) [] c.shots w1 with ⟨r1, sha, wa⟩
  rcases h2 : gfs_loop (circuitRestOps c)
      (create_initial_state c.op_wires (circuitPrep c) ab)
      (initial_is_state_batched c) [] c.shots w2 with ⟨r2, shb, wb⟩
  rw [h1, h2] at hl
  simp only at hl
  subst hl
  simp only [h1, h2]
  cases r1 with
  | error e => simp
  | ok trip => rcases trip with ⟨st, f, mv⟩; simp

/-- With an explicit seed, `measure_final_state` ignores the entropy
world entirely (the seeded generator is a pure stream). -/
theorem measure_final_state_seeded (c : Circuit) (st : QState) (f : Bool)
    (s : Nat) (w1 w2 : World) :
    measure_final_state c st f (some s) w1 = measure_final_state c st f (some s) w2 := rfl

/-- C9 (amended).  For every circuit whose operations mention no
mid-circuit measurement (also not under a `Conditional`), two `simulate`
calls with the same explicit seed return identical results and identical
caches whatever the state of the process-global generator: on this
fragment the pipeline is seed-deterministic.  (The counterexample shows
the fragment bound is tight: mid-circuit measurement collapse draws from
the process-global generator, since `get_final_state` accepts no
generator argument.) -/
theorem simulate_seed_deterministic_without_mcm (c : Circuit) (s : Nat)
    (ab : Bool) (w1 w2 : World) (cache : Option Cache)
    (hops : ∀ op ∈ c.ops, op.usesMidMeasure = false) :
    (simulate c (some s) ab w1 cache).1 = (simulate c (some s) ab w2 cache).1 ∧
    (simulate c (some s) ab w1 cache).2.2 = (simulate c (some s) ab w2 cache).2.2 := by
  have hmcm : has_mid_circuit_measurements c = false := by
    unfold has_mid_circuit_measurements
    rw [List.any_eq_false]
    intro op hop
    have h := hops op hop
    cases op with
    | simple sop =>
        cases sop <;> simp_all [Op.usesMidMeasure, SimpleOp.isMidMeasure]
    | conditional hh t => simp
  have hgfs := get_final_state_result_world_indep c ab hops w1 w2
  unfold simulate
  rw [hmcm]
  simp only [Bool.false_and, Bool.false_eq_true, if_false]
  rcases h1 : get_final_state c ab w1 with ⟨r1, c1, w1'⟩
  rcases h2 : get_final_state c ab w2 with ⟨r2, c2, w2'⟩
  rw [h1, h2] at hgfs
  simp only at hgfs
  subst hgfs
  cases r1 with
  | error e => simp
  | ok trip =>
      rcases trip with ⟨st, f, mv⟩
      simp [measure_final_state_seeded c st f s w1' w2']

/-- Witness for the amended C9 at a concrete input: the postselecting
shots-ful (but measurement-free) circuit gives identical results under two
very different global generator states with the same seed. -/
theorem simulate_seed_deterministic_without_mcm_witness :
    (∀ op ∈ postselectShotsCircuit.ops, op.usesMidMeasure = false) ∧
    (simulate postselectShotsCircuit (some 0) false (mkWorld fun _ => 0) none).1 =
      (simulate postselectShotsCircuit (some 0) false (mkWorld fun _ => 5) none).1 := by
  refine ⟨by decide, ?_⟩
  exact (simulate_seed_deterministic_without_mcm postselectShotsCircuit 0 false
    (mkWorld fun _ => 0) (mkWorld fun _ => 5) none (by decide)).1

/-- C9 counterexample.  Two successive `simulate` calls on the same fixed
circuit with the same fixed seed — the second call seeing the
process-global generator exactly as the first call left it — return
different results: the mid-circuit measurement collapse draws from the
process-global generator (`get_final_state` accepts no seed), so a fixed
`rng` does not make `simulate` reproducible. -/
theorem simulate_fixed_seed_not_reproducible :
    (simulate sampleMcmCircuit (some 0) false
      (mkWorld fun i => if i = 0 then 0 else 1) none).1 ≠
    (simulate sampleMcmCircuit (some 0) false
      (simulate sampleMcmCircuit (some 0) false
        (mkWorld fun i => if i = 0 then 0 else 1) none).2.1 none).1 := by
  decide

/-- Shifting the enumeration start shifts every produced index. -/
theorem idxWhereAux_succ (p : α → Bool) (l : List α) :
    ∀ i, idxWhereAux p (i + 1) l = (idxWhereAux p i l).map Nat.succ := by
  induction l with
  | nil => intro i; rfl
  | cons a t ih =>
      intro i
      by_cases hp : p a
      · simp [idxWhereAux, hp, ih (i + 1)]
      · simp [idxWhereAux, hp, ih (i + 1)]

/-- Popping successor indices leaves the head untouched. -/
theorem foldl_eraseIdx_map_succ (idxs : List Nat) :
    ∀ (a : α) (t : List α),
      (idxs.map Nat.succ).foldl (fun acc i => acc.eraseIdx i) (a :: t) =
        a :: idxs.foldl (fun acc i => acc.eraseIdx i) t := by
  induction idxs with
  | nil => intro a t; rfl
  | cons i rest ih =>
      intro a t
      simp only [List.map_cons, List.foldl_cons, List.eraseIdx]
      exact ih a (t.eraseIdx i)

/-- Popping, in descending order, exactly the positions whose element
satisfies the predicate is filtering by its negation: the shots-stripped
circuit keeps precisely the non-sample-like measurements, in order. -/
theorem popByIdx_reverse_filter (p : α → Bool) (l : List α) :
    popByIdx l (idxWhere p l).reverse = l.filter (fun a => !p a) := by
  induction l with
  | nil => rfl
  | cons a t ih =>
      unfold popByIdx idxWhere at ih ⊢
      cases hp : p a with
      | true =>
          simp only [idxWhereAux, hp, if_true, idxWhereAux_succ p t 0,
            List.reverse_cons, List.foldl_append, List.reverse_map]
          rw [foldl_eraseIdx_map_succ]
          simp only [List.foldl_cons, List.foldl_nil, List.eraseIdx]
          rw [ih]
          simp [hp]
      | false =>
          simp only [idxWhereAux, hp, if_false, Bool.false_eq_true,
            idxWhereAux_succ p t 0, List.reverse_map]
          rw [foldl_eraseIdx_map_succ]
          rw [ih]
          simp [hp]

/-- The number of produced indices is the number of satisfying elements. -/
theorem idxWhereAux_length (p : α → Bool) (l : List α) :
    ∀ i, (idxWhereAux p i l).length = (l.filter p).length := by
  induction l with
  | nil => intro i; rfl
  | cons a t ih =>
      intro i
      by_cases hp : p a
      · simp [idxWhereAux, hp, List.filter_cons, ih (i + 1)]
      · simp [idxWhereAux, hp, List.filter_cons, ih (i + 1)]

/-- The stripped circuit keeps exactly the non-sample-like measurements. -/
theorem stripped_measurements (c : Circuit) :
    (strippedCircuit c).measurements =
      c.measurements.filter (fun m => !m.isSampleLike) := by
  unfold strippedCircuit idx_sampling_measurements
  exact popByIdx_reverse_filter MP.isSampleLike c.measurements

/-- The analytic index list and the stripped measurement list have the
same length. -/
theorem idx_analytic_length_eq (c : Circuit) :
    (idx_analytic_measurements c).length = (strippedCircuit c).measurements.length := by
  rw [stripped_measurements]
  unfold idx_analytic_measurements idxWhere
  exact idxWhereAux_length (fun m => !m.isSampleLike) c.measurements 0

/-- A successful single trial on an analytic circuit whose measurement
list is not a singleton returns a tuple-shaped result with one entry per
measurement (the bare-value unwrap of `measure_final_state` is not
taken). -/
theorem native_mcm_ok_multiple (tmp : Circuit) (hsh : tmp.shots = ShotsSpec.analytic)
    (hlen : tmp.measurements.length ≠ 1) (rng : Option Nat) (ab : Bool) (w : World)
    (r : Result) (d : MDict) (w' : World)
    (h : simulate_native_mcm tmp rng ab w = (.ok (r, d), w')) :
    ∃ l, r = Result.multiple l ∧ l.length = tmp.measurements.length := by
  unfold simulate_native_mcm at h
  rw [hsh] at h
  simp only [ShotsSpec.total_shots] at h
  rcases hg : get_final_state tmp ab w with ⟨gres, c1, w1⟩
  rw [hg] at h
  cases gres with
  | error e => simp at h
  | ok trip =>
      rcases trip with ⟨st, f, mv⟩
      simp only at h
      have hr : r = measure_final_state tmp st f rng w1 := by
        have := congrArg (fun x => x.1) h
        simp at this
        exact this.1.symm
      subst hr
      unfold measure_final_state map_to_standard_wires
      rcases hms : tmp.measurements with _ | ⟨m0, mrest⟩
      · refine ⟨[], ?_, by simp [hms]⟩
        simp only [hsh, hms, List.map_nil]
      · rcases hmr : mrest with _ | ⟨m1, mrest2⟩
        · rw [hmr] at hms; rw [hms] at hlen; simp at hlen
        · subst hmr
          refine ⟨(m0 :: m1 :: mrest2).map (fun mp => measureMP mp st), ?_,
            by simp [hms]⟩
          simp only [hsh, hms]

/-- The trial accumulation loop computes the clean element-wise left fold
of the per-trial tuple results, collecting the outcome dictionaries in
trial order. -/
theorem trial_loop_spec (tmp : Circuit) (hsh : tmp.shots = ShotsSpec.analytic)
    (hlen : tmp.measurements.length ≠ 1) (rng : Option Nat) (ab : Bool) :
    ∀ (k : Nat) (acc : AnalyticAcc) (ds0 : List MDict) (w : World)
      (ms0 : List MeasResult), accIter acc = .ok ms0 →
      ms0.length = tmp.measurements.length →
      (match n_trials_results tmp rng ab k w with
       | (.error e, w') => trial_loop tmp rng ab k acc ds0 w = (.error e, w')
       | (.ok (rs, ds), w') => ∃ acc', trial_loop tmp rng ab k acc ds0 w =
            (.ok (acc', ds0 ++ ds), w') ∧ accIter acc' = .ok (sumOnto ms0 rs)) := by
  intro k
  induction k with
  | zero =>
      intro acc ds0 w ms0 hacc hms0
      simp only [n_trials_results, trial_loop]
      exact ⟨acc, by simp, by simp [sumOnto, hacc]⟩
  | succ k ih =>
      intro acc ds0 w ms0 hacc hms0
      rcases hsim : simulate_native_mcm tmp rng ab w with ⟨sres, w1⟩
      cases sres with
      | error e => simp [n_trials_results, trial_loop, hsim]
      | ok p =>
          rcases p with ⟨r, d⟩
          obtain ⟨l, hl, hllen⟩ :=
            native_mcm_ok_multiple tmp hsh hlen rng ab w r d w1 hsim
          subst hl
          have hiter : resultIter (Result.multiple l) = .ok l := rfl
          have hnext := ih (.lst (List.zipWith MeasResult.add ms0 l)) (ds0 ++ [d]) w1
            (List.zipWith MeasResult.add ms0 l) rfl
            (by rw [List.length_zipWith, hms0, hllen]; simp)
          rcases hn : n_trials_results tmp rng ab k w1 with ⟨nres, w2⟩
          rw [hn] at hnext
          cases nres with
          | error e =>
              simp only [n_trials_results, trial_loop, hsim, hn, hacc, hiter]
              simpa using hnext
          | ok q =>
              rcases q with ⟨rs, ds⟩
              simp only at hnext
              obtain ⟨acc', hloop, hacc'⟩ := hnext
              simp only [n_trials_results, trial_loop, hsim, hn, hacc, hiter]
              refine ⟨acc', ?_, ?_⟩
              · rw [hloop]
                simp [List.append_assoc]
              · rw [hacc']
                simp [sumOnto, Result.toLists]

/-- Gathering depends on the accumulator only through its iteration. -/
theorem gather_congr (c : Circuit) (a1 a2 : AnalyticAcc) (ds : List MDict)
    (h : accIter a1 = accIter a2) :
    gather_native_mid_circuit_measurements c a1 ds =
    gather_native_mid_circuit_measurements c a2 ds := by
  unfold gather_native_mid_circuit_measurements
  rw [h]

/-- C1 (amended).  `simulate` enters repeated-trial mode exactly when the
circuit has a mid-circuit measurement among its operations and a
non-`None` total shot count; otherwise it is one `get_final_state` pass
followed by one `measure_final_state` pass (plus the cache write).  In
repeated-trial mode, provided the analytic-like measurement sublist does
not consist of exactly one measurement, the call runs exactly
`total_shots` single-trial analytic simulations (`N - 1 + 1` of them, one
per requested shot) and accumulates the per-trial tuple results by
element-wise addition in trial order before gathering.  (The
single-analytic-measurement case is excluded: there the per-trial result
is a bare value and the accumulation `zip` raises `TypeError`, see the
counterexample.) -/
theorem simulate_mode_split_and_accumulation (c : Circuit) (rng : Option Nat)
    (ab : Bool) (w : World) (cache : Option Cache) :
    ((has_mid_circuit_measurements c && c.shots.total_shots.isSome) = false →
      simulate c rng ab w cache =
        (match get_final_state c ab w with
         | (.error e, _, w') => (.error e, w', cache)
         | (.ok (st, f, _), _, w') =>
             (.ok (.single_run (measure_final_state c st f rng w')), w',
               match cache with
               | some d => some (cacheInsert d c.hash st)
               | none => none))) ∧
    (∀ N, has_mid_circuit_measurements c = true →
      c.shots.total_shots = some N →
      (idx_analytic_measurements c).length ≠ 1 →
      simulate c rng ab w cache =
        (match n_trials_results (strippedCircuit c) rng ab (N - 1 + 1) w with
         | (.error e, w') => (.error e, w', cache)
         | (.ok (rs, ds), w') =>
             match gather_native_mid_circuit_measurements c
                 (.lst (sumOnto ((rs.headD (Result.multiple [])).toLists) rs.tail))
                 ds with
             | .error e => (.error e, w', cache)
             | .ok out => (.ok (.mcm_run out), w', cache))) := by
  constructor
  · intro hcond
    simp only [simulate]
    rw [hcond]
    rfl
  · intro N hm hN hlen
    have hsome : c.shots.total_shots.isSome = true := by rw [hN]; rfl
    have hgetD : c.shots.total_shots.getD 0 = N := by rw [hN]; rfl
    have hshots' : (strippedCircuit c).shots = ShotsSpec.analytic := rfl
    have hlen' : (strippedCircuit c).measurements.length ≠ 1 := by
      rw [← idx_analytic_length_eq c]; exact hlen
    simp only [simulate, hm, hsome, Bool.and_self, if_true, hgetD]
    unfold trial_phase
    rcases hsim : simulate_native_mcm (strippedCircuit c) rng ab w with ⟨sres, w1⟩
    cases sres with
    | error e => simp [n_trials_results, hsim]
    | ok p =>
        rcases p with ⟨r0, d0⟩
        obtain ⟨l0, hl0, hl0len⟩ :=
          native_mcm_ok_multiple _ hshots' hlen' rng ab w r0 d0 w1 hsim
        subst hl0
        have hspec := trial_loop_spec (strippedCircuit c) hshots' hlen' rng ab (N - 1)
          (.res (.multiple l0)) [d0] w1 l0 rfl hl0len
        rcases hn : n_trials_results (strippedCircuit c) rng ab (N - 1) w1
          with ⟨nres, w2⟩
        rw [hn] at hspec
        cases nres with
        | error e =>
            simp only at hspec
            simp [n_trials_results, hsim, hn, hspec]
        | ok q =>
            rcases q with ⟨rs, ds⟩
            simp only at hspec
            obtain ⟨acc', hloop, hacc'⟩ := hspec
            have hg := gather_congr c acc' (.lst (sumOnto l0 rs)) (d0 :: ds)
              (by rw [hacc']; rfl)
            simp only [n_trials_results, hsim, hn, hloop, List.singleton_append, hg,
              List.headD_cons, List.tail_cons, Result.toLists]

/-- C1 counterexample.  A circuit with one mid-circuit measurement, a
single analytic (expectation) terminal measurement and three shots is in
repeated-trial mode, but its per-trial result is a bare scalar, so the
`zip`-based accumulation raises `TypeError` after the second trial: the
call runs only 2 of the 3 requested trials (one global draw per trial)
and never accumulates element-wise, refuting the claim as stated. -/
theorem simulate_single_analytic_accumulation_fails :
    has_mid_circuit_measurements singleExpectationMcmCircuit = true ∧
    singleExpectationMcmCircuit.shots.total_shots = some 3 ∧
    (simulate singleExpectationMcmCircuit none false (mkWorld fun _ => 0) none).1 =
      .error "TypeError: zip argument must support iteration" ∧
    (simulate singleExpectationMcmCircuit none false
      (mkWorld fun _ => 0) none).2.1.npCount = 2 := by
  exact ⟨rfl, rfl, rfl, rfl⟩

/-- Witness for the amended C1 at concrete inputs: a measurement-free
postselecting circuit takes the single-pass branch, and the
two-analytic-measurement circuit in repeated-trial mode equals the clean
two-trial accumulation. -/
theorem simulate_mode_split_and_accumulation_witness :
    ((has_mid_circuit_measurements postselectShotsCircuit &&
        postselectShotsCircuit.shots.total_shots.isSome) = false) ∧
    (simulate postselectShotsCircuit (some 0) false (mkWorld fun _ => 0) none =
      (match get_final_state postselectShotsCircuit false (mkWorld fun _ => 0) with
       | (.error e, _, w') => (.error e, w', none)
       | (.ok (st, f, _), _, w') =>
           (.ok (.single_run (measure_final_state postselectShotsCircuit st f
             (some 0) w')), w',
             match (none : Option Cache) with
             | some d => some (cacheInsert d postselectShotsCircuit.hash st)
             | none => none))) ∧
    (has_mid_circuit_measurements twoAnalyticMcmCircuit = true) ∧
    (twoAnalyticMcmCircuit.shots.total_shots = some 2) ∧
    ((idx_analytic_measurements twoAnalyticMcmCircuit).length ≠ 1) ∧
    simulate twoAnalyticMcmCircuit none false (mkWorld fun _ => 0) none =
      (match n_trials_results (strippedCircuit twoAnalyticMcmCircuit) none false
          (2 - 1 + 1) (mkWorld fun _ => 0) with
       | (.error e, w') => (.error e, w', none)
       | (.ok (rs, ds), w') =>
           match gather_native_mid_circuit_measurements twoAnalyticMcmCircuit
               (.lst (sumOnto ((rs.headD (Result.multiple [])).toLists) rs.tail))
               ds with
           | .error e => (.error e, w', none)
           | .ok out => (.ok (.mcm_run out), w', none)) := by
  refine ⟨by decide, ?_, rfl, rfl, by decide, ?_⟩
  · exact (simulate_mode_split_and_accumulation postselectShotsCircuit (some 0) false
      (mkWorld fun _ => 0) none).1 (by decide)
  · exact (simulate_mode_split_and_accumulation twoAnalyticMcmCircuit none false
      (mkWorld fun _ => 0) none).2 2 rfl rfl (by decide)

/-- Characterization of enumerated indices (with offset). -/
theorem mem_idxWhereAux (p : α → Bool) (l : List α) :
    ∀ i j, j ∈ idxWhereAux p i l ↔
      ∃ k a, l.get? k = some a ∧ p a = true ∧ j = i + k := by
  induction l with
  | nil => intro i j; simp [idxWhereAux]
  | cons a t ih =>
      intro i j
      cases hp : p a with
      | true =>
          simp only [idxWhereAux, hp, if_true, List.mem_cons]
          constructor
          · rintro (rfl | hmem)
            · exact ⟨0, a, rfl, hp, by omega⟩
            · obtain ⟨k, a', hget, hpa, hj⟩ := (ih (i + 1) j).mp hmem
              exact ⟨k + 1, a', by simpa using hget, hpa, by omega⟩
          · rintro ⟨k, a', hget, hpa, hj⟩
            cases k with
            | zero =>
                simp at hget
                subst hget
                left; omega
            | succ k =>
                right
                exact (ih (i + 1) j).mpr ⟨k, a', by simpa using hget, hpa, by omega⟩
      | false =>
          simp only [idxWhereAux, hp, Bool.false_eq_true, if_false]
          constructor
          · intro hmem
            obtain ⟨k, a', hget, hpa, hj⟩ := (ih (i + 1) j).mp hmem
            exact ⟨k + 1, a', by simpa using hget, hpa, by omega⟩
          · rintro ⟨k, a', hget, hpa, hj⟩
            cases k with
            | zero =>
                simp at hget
                subst hget
                rw [hp] at hpa
                exact absurd hpa (by simp)
            | succ k =>
                exact (ih (i + 1) j).mpr ⟨k, a', by simpa using hget, hpa, by omega⟩

/-- An index is produced exactly when its element satisfies the
predicate. -/
theorem mem_idxWhere (p : α → Bool) (l : List α) (j : Nat) :
    j ∈ idxWhere p l ↔ ∃ a, l.get? j = some a ∧ p a = true := by
  unfold idxWhere
  rw [mem_idxWhereAux]
  constructor
  · rintro ⟨k, a, hget, hpa, hj⟩
    exact ⟨a, by simpa [hj] using hget, hpa⟩
  · rintro ⟨a, hget, hpa⟩
    exact ⟨j, a, hget, hpa, by omega⟩

/-- Positionwise zip access. -/
theorem zip_get?_of {β γ : Type} (l1 : List β) :
    ∀ (l2 : List γ) (j : Nat) (a : β) (b : γ), l1.get? j = some a →
      l2.get? j = some b → (l1.zip l2).get? j = some (a, b) := by
  induction l1 with
  | nil => intro l2 j a b h1 _; simp at h1
  | cons x t ih =>
      intro l2 j a b h1 h2
      cases l2 with
      | nil => simp at h2
      | cons y s =>
          cases j with
          | zero =>
              simp at h1 h2
              simp [List.zip_cons_cons, h1, h2]
          | succ j =>
              simp only [List.get?] at h1 h2
              simpa [List.zip_cons_cons] using ih s j a b h1 h2

/-- Numeric values divide successfully by an integer shot count. -/
theorem divShots_of_numeric (m : MeasResult) (N : Nat)
    (h : m.isNumeric = true) : ∃ v, m.divShots (some N) = .ok v := by
  cases m with
  | scalar a => exact ⟨_, rfl⟩
  | vector xs => exact ⟨_, rfl⟩
  | countsDict n0 n1 => simp [MeasResult.isNumeric] at h
  | bitArray bs => simp [MeasResult.isNumeric] at h

/-- A measurement that is neither sample-like nor supported by the
analytic normalization branch is a shadow measurement. -/
theorem shadow_of_not_supported (mp : MP) (h1 : mp.isSampleLike = false)
    (h2 : mp.isAnalyticSupported = false) : mp.isShadow = true := by
  cases mp <;> simp_all [MP.isSampleLike, MP.isAnalyticSupported, MP.isShadow]

/-- A measurement supported by the analytic normalization branch is not a
shadow measurement. -/
theorem not_shadow_of_supported (mp : MP) (h : mp.isAnalyticSupported = true) :
    mp.isShadow = false := by
  cases mp <;> simp_all [MP.isAnalyticSupported, MP.isShadow]

/-- If every scanned pair has a non-sample-like kind and a numeric value,
and some scanned pair refers to a shadow measurement, the analytic
gathering loop raises the descriptive unsupported-kind error (for a
shadow kind). -/
theorem gatherAnalytic_hits_unsupported (c : Circuit) (N : Nat) :
    ∀ (pairs : List (Nat × MeasResult)) (nm : List (Option MeasResult)),
      (∀ p ∈ pairs, ∃ mp, c.measurements.get? p.1 = some mp ∧
        mp.isSampleLike = false ∧ p.2.isNumeric = true) →
      (∃ p ∈ pairs, ∃ mp, c.measurements.get? p.1 = some mp ∧ mp.isShadow = true) →
      ∃ mp, mp.isShadow = true ∧
        gatherAnalytic c (some N) pairs nm = .error (unsupportedMsg mp) := by
  intro pairs
  induction pairs with
  | nil =>
      intro nm _ hex
      rcases hex with ⟨p, hp, _⟩
      exact absurd hp (List.not_mem_nil p)
  | cons pr rest ih =>
      intro nm hall hex
      obtain ⟨mp0, hget0, hsl0, hnum0⟩ := hall pr (List.mem_cons_self pr rest)
      rcases hsupp : mp0.isAnalyticSupported with _ | _
      · have hsh0 := shadow_of_not_supported mp0 hsl0 hsupp
        refine ⟨mp0, hsh0, ?_⟩
        rcases pr with ⟨i, m⟩
        simp only at hget0
        have hget0' : c.measurements[i]? = some mp0 := by
          simpa [List.get?_eq_getElem?] using hget0
        simp [gatherAnalytic, hget0', hsupp]
      · obtain ⟨v, hv⟩ := divShots_of_numeric pr.2 N hnum0
        have hrest_all : ∀ p ∈ rest, ∃ mp, c.measurements.get? p.1 = some mp ∧
            mp.isSampleLike = false ∧ p.2.isNumeric = true :=
          fun p hp => hall p (List.mem_cons_of_mem pr hp)
        have hrest_ex : ∃ p ∈ rest, ∃ mp, c.measurements.get? p.1 = some mp ∧
            mp.isShadow = true := by
          rcases hex with ⟨p, hp, mp, hgetp, hshp⟩
          rcases List.mem_cons.mp hp with rfl | hmem
          · rw [hget0] at hgetp
            injection hgetp with hmp
            subst hmp
            rw [not_shadow_of_supported mp0 hsupp] at hshp
            exact absurd hshp (by simp)
          · exact ⟨p, hmem, mp, hgetp, hshp⟩
        obtain ⟨mp, hsh, hrec⟩ := ih (nm.set pr.1 (some v)) hrest_all hrest_ex
        refine ⟨mp, hsh, ?_⟩
        rcases pr with ⟨i, m⟩
        simp only at hget0 hv hrec
        have hget0' : c.measurements[i]? = some mp0 := by
          simpa [List.get?_eq_getElem?] using hget0
        simp [gatherAnalytic, hget0', hsupp, hv, hrec]

/-- C2 (amended).  In repeated-trial mode, a circuit whose measurement
list contains a `ClassicalShadowMP` or `ShadowExpvalMP` makes `simulate`
fail with the descriptive error naming the unsupported (shadow) kind —
but the failure is raised by the measurement-kind dispatch inside
`gather_native_mid_circuit_measurements`, which runs only after the whole
per-shot trial phase has completed (there is no upfront pre-check before
the trial loop; the counterexample exhibits the trials running first). -/
theorem shadow_error_raised_by_gather_dispatch (c : Circuit) (rng : Option Nat)
    (ab : Bool) (w : World) (cache : Option Cache) (N : Nat)
    (acc : AnalyticAcc) (dicts : List MDict) (w' : World) (ms : List MeasResult)
    (hm : has_mid_circuit_measurements c = true)
    (hN : c.shots.total_shots = some N)
    (htp : trial_phase (strippedCircuit c) rng ab N w = (.ok (acc, dicts), w'))
    (hacc : accIter acc = .ok ms)
    (hcover : (idx_analytic_measurements c).length ≤ ms.length)
    (hnum : ∀ m ∈ ms, m.isNumeric = true)
    (hshadow : ∃ mp ∈ c.measurements, mp.isShadow = true) :
    ∃ mp, mp.isShadow = true ∧
      simulate c rng ab w cache = (.error (unsupportedMsg mp), w', cache) := by
  have hsome : c.shots.total_shots.isSome = true := by rw [hN]; rfl
  have hgetD : c.shots.total_shots.getD 0 = N := by rw [hN]; rfl
  have hall : ∀ p ∈ (idx_analytic_measurements c).zip ms,
      ∃ mp, c.measurements.get? p.1 = some mp ∧
        mp.isSampleLike = false ∧ p.2.isNumeric = true := by
    rintro ⟨i, m⟩ hp
    have hmem := List.of_mem_zip hp
    obtain ⟨a, hget, hpa⟩ :=
      (mem_idxWhere (fun m => !MP.isSampleLike m) c.measurements i).mp hmem.1
    exact ⟨a, hget, by simpa using hpa, hnum m hmem.2⟩
  have hex : ∃ p ∈ (idx_analytic_measurements c).zip ms,
      ∃ mp, c.measurements.get? p.1 = some mp ∧ mp.isShadow = true := by
    obtain ⟨mp, hmp, hsh⟩ := hshadow
    obtain ⟨i, hgeti⟩ := List.get?_of_mem hmp
    have hsl : mp.isSampleLike = false := by
      cases mp <;> simp_all [MP.isShadow, MP.isSampleLike]
    have hiA : i ∈ idx_analytic_measurements c :=
      (mem_idxWhere (fun m => !MP.isSampleLike m) c.measurements i).mpr
        ⟨mp, hgeti, by simp [hsl]⟩
    obtain ⟨j, hj⟩ := List.get?_of_mem hiA
    have hjlt : j < (idx_analytic_measurements c).length := by
      by_contra hge
      rw [List.get?_eq_none.mpr (by omega)] at hj
      exact Option.noConfusion hj
    have hjms : j < ms.length := lt_of_lt_of_le hjlt hcover
    obtain ⟨m, hmj⟩ : ∃ m, ms.get? j = some m := by
      rcases hms : ms.get? j with _ | m
      · rw [List.get?_eq_none] at hms; omega
      · exact ⟨m, rfl⟩
    have hzip := zip_get?_of (idx_analytic_measurements c) ms j i m hj hmj
    exact ⟨(i, m), List.get?_mem hzip, mp, hgeti, hsh⟩
  obtain ⟨mp, hsh, hga⟩ := gatherAnalytic_hits_unsupported c N
    ((idx_analytic_measurements c).zip ms)
    (List.replicate c.measurements.length none) hall hex
  refine ⟨mp, hsh, ?_⟩
  have hgather : gather_native_mid_circuit_measurements c acc dicts =
      .error (unsupportedMsg mp) := by
    unfold gather_native_mid_circuit_measurements
    rw [hacc, hN]
    dsimp only
    rw [hga]
  simp only [simulate, hm, hsome, Bool.and_self, if_true, hgetD, htp, hgather]

/-- C2 counterexample.  On a concrete repeated-trial circuit carrying a
`ClassicalShadowMP`, `simulate` does fail with the descriptive error
naming the kind — but only after the per-shot trial phase ran: the
process-global generator, untouched at entry, has been drawn from twice
(once per mid-circuit collapse of each of the two trials) by the time the
error is raised.  There is no upfront pre-check before the trial loop. -/
theorem shadow_error_after_trials_ran :
    (simulate shadowMcmCircuit none false (mkWorld fun _ => 0) none).1 =
      .error (unsupportedMsg MP.classicalShadowMP) ∧
    (mkWorld (fun _ => 0)).npCount = 0 ∧
    (simulate shadowMcmCircuit none false
      (mkWorld fun _ => 0) none).2.1.npCount = 2 := by
  exact ⟨rfl, rfl, rfl⟩

/-- Witness for the amended C2 at a concrete input: the shadow-carrying
circuit's trial phase completes with concrete accumulator and outcome
dictionaries, and `simulate` then fails with the shadow-kind error. -/
theorem shadow_error_raised_by_gather_dispatch_witness :
    has_mid_circuit_measurements shadowMcmCircuit = true ∧
    shadowMcmCircuit.shots.total_shots = some 2 ∧
    ∃ mp, mp.isShadow = true ∧
      simulate shadowMcmCircuit none false (mkWorld fun _ => 0) none =
        (.error (unsupportedMsg mp),
          (trial_phase (strippedCircuit shadowMcmCircuit) none false 2
            (mkWorld fun _ => 0)).2, none) := by
  refine ⟨rfl, rfl, ?_⟩
  exact shadow_error_raised_by_gather_dispatch shadowMcmCircuit none false
    (mkWorld fun _ => 0) none 2
    (AnalyticAcc.lst [MeasResult.scalar (fq 2 1), MeasResult.vector [fq 0 1]])
    [[(5, false)], [(5, false)]]
    ((trial_phase (strippedCircuit shadowMcmCircuit) none false 2
      (mkWorld fun _ => 0)).2)
    [MeasResult.scalar (fq 2 1), MeasResult.vector [fq 0 1]]
    rfl rfl rfl rfl (by decide) (by decide)
    ⟨MP.classicalShadowMP, by decide, rfl⟩

/-- A position holding a value is within bounds. -/
theorem lt_of_get?_eq_some {l : List α} {n : Nat} {a : α}
    (h : l.get? n = some a) : n < l.length := by
  by_contra hge
  rw [List.get?_eq_none.mpr (by omega)] at h
  exact Option.noConfusion h

/-- Enumerated indices are at least the starting offset. -/
theorem idxWhereAux_ge (p : α → Bool) (l : List α) (i j : Nat)
    (h : j ∈ idxWhereAux p i l) : i ≤ j := by
  obtain ⟨k, a, _, _, hj⟩ := (mem_idxWhereAux p l i j).mp h
  omega

/-- Enumerated indices are strictly increasing. -/
theorem idxWhereAux_pairwise (p : α → Bool) (l : List α) :
    ∀ i, (idxWhereAux p i l).Pairwise (· < ·) := by
  induction l with
  | nil => intro i; simp [idxWhereAux]
  | cons a t ih =>
      intro i
      cases hp : p a with
      | true =>
          simp only [idxWhereAux, hp, if_true]
          exact List.Pairwise.cons
            (fun j hj => lt_of_lt_of_le (Nat.lt_succ_self i) (idxWhereAux_ge p t (i + 1) j hj))
            (ih (i + 1))
      | false =>
          simp only [idxWhereAux, hp, Bool.false_eq_true, if_false]
          exact ih (i + 1)

/-- Pairwise relations on a list transfer to the first components of its
zip with any list. -/
theorem zip_pairwise_fst {R : Nat → Nat → Prop} :
    ∀ (l : List Nat) (m : List MeasResult), l.Pairwise R →
      (l.zip m).Pairwise (fun p q => R p.1 q.1) := by
  intro l
  induction l with
  | nil => intro m _; simp
  | cons x t ih =>
      intro m h
      cases m with
      | nil => simp
      | cons y s =>
          rw [List.pairwise_cons] at h
          simp only [List.zip_cons_cons]
          exact List.Pairwise.cons
            (fun q hq => h.1 q.1 (List.of_mem_zip hq).1)
            (ih s h.2)

/-- The analytic gathering loop preserves every slot it does not scan. -/
theorem gatherAnalytic_preserve (c : Circuit) (t : Option Nat) :
    ∀ (pairs : List (Nat × MeasResult)) (nm nm' : List (Option MeasResult))
      (k : Nat), (∀ p ∈ pairs, p.1 ≠ k) →
      gatherAnalytic c t pairs nm = .ok nm' → nm'.get? k = nm.get? k := by
  intro pairs
  induction pairs with
  | nil =>
      intro nm nm' k _ h
      simp only [gatherAnalytic] at h
      injection h with h
      rw [h]
  | cons pr rest ih =>
      rcases pr with ⟨i, m⟩
      intro nm nm' k hne h
      simp only [gatherAnalytic] at h
      rcases hmi : c.measurements.get? i with _ | mp
      · rw [hmi] at h; simp at h
      · rw [hmi] at h
        dsimp only at h
        rcases hsupp : mp.isAnalyticSupported with _ | _
        · rw [hsupp] at h; simp at h
        · rw [hsupp] at h
          rw [if_pos rfl] at h
          rcases hdiv : m.divShots t with e | v
          · rw [hdiv] at h; simp at h
          · rw [hdiv] at h
            dsimp only at h
            have hrec := ih (nm.set i (some v)) nm' k
              (fun p hp => hne p (List.mem_cons_of_mem _ hp)) h
            rw [hrec]
            exact List.get?_set_ne (some v) nm
              (hne (i, m) (List.mem_cons_self _ _))

/-- The analytic gathering loop preserves the slot-list length. -/
theorem gatherAnalytic_length (c : Circuit) (t : Option Nat) :
    ∀ (pairs : List (Nat × MeasResult)) (nm nm' : List (Option MeasResult)),
      gatherAnalytic c t pairs nm = .ok nm' → nm'.length = nm.length := by
  intro pairs
  induction pairs with
  | nil =>
      intro nm nm' h
      simp only [gatherAnalytic] at h
      injection h with h
      rw [h]
  | cons pr rest ih =>
      rcases pr with ⟨i, m⟩
      intro nm nm' h
      simp only [gatherAnalytic] at h
      rcases hmi : c.measurements.get? i with _ | mp
      · rw [hmi] at h; simp at h
      · rw [hmi] at h
        dsimp only at h
        rcases hsupp : mp.isAnalyticSupported with _ | _
        · rw [hsupp] at h; simp at h
        · rw [hsupp] at h
          rw [if_pos rfl] at h
          rcases hdiv : m.divShots t with e | v
          · rw [hdiv] at h; simp at h
          · rw [hdiv] at h
            dsimp only at h
            rw [ih (nm.set i (some v)) nm' h]
            exact List.length_set nm i (some v)

/-- On success, the analytic gathering loop wrote each scanned slot with
its normalized value, and each scanned measurement kind was supported. -/
theorem gatherAnalytic_get (c : Circuit) (t : Option Nat) :
    ∀ (pairs : List (Nat × MeasResult)) (nm nm' : List (Option MeasResult)),
      pairs.Pairwise (fun p q => p.1 ≠ q.1) →
      (∀ p ∈ pairs, p.1 < nm.length) →
      gatherAnalytic c t pairs nm = .ok nm' →
      ∀ p ∈ pairs, ∃ mp v, c.measurements.get? p.1 = some mp ∧
        mp.isAnalyticSupported = true ∧ p.2.divShots t = .ok v ∧
        nm'.get? p.1 = some (some v) := by
  intro pairs
  induction pairs with
  | nil => intro nm nm' _ _ _ p hp; exact absurd hp (List.not_mem_nil p)
  | cons pr rest ih =>
      rcases pr with ⟨i, m⟩
      intro nm nm' hpw hbnd h p hp
      simp only [gatherAnalytic] at h
      rcases hmi : c.measurements.get? i with _ | mp
      · rw [hmi] at h; simp at h
      · rw [hmi] at h
        dsimp only at h
        rcases hsupp : mp.isAnalyticSupported with _ | _
        · rw [hsupp] at h; simp at h
        · rw [hsupp] at h
          rw [if_pos rfl] at h
          rcases hdiv : m.divShots t with e | v
          · rw [hdiv] at h; simp at h
          · rw [hdiv] at h
            dsimp only at h
            rw [List.pairwise_cons] at hpw
            rcases List.mem_cons.mp hp with rfl | hmem
            · refine ⟨mp, v, hmi, hsupp, hdiv, ?_⟩
              have hpres := gatherAnalytic_preserve c t rest (nm.set i (some v)) nm' i
                (fun q hq => (hpw.1 q hq).symm) h
              rw [hpres]
              exact List.get?_set_eq_of_lt (some v)
                (hbnd (i, m) (List.mem_cons_self _ _))
            · exact ih (nm.set i (some v)) nm' hpw.2
                (fun q hq => by
                  rw [List.length_set]
                  exact hbnd q (List.mem_cons_of_mem _ hq)) h p hmem

/-- The sample gathering loop preserves every slot it does not scan. -/
theorem gatherSample_preserve (c : Circuit) (dicts : List MDict) :
    ∀ (idxs : List Nat) (nm nm' : List (Option MeasResult)) (k : Nat),
      (∀ i ∈ idxs, i ≠ k) →
      gatherSample c dicts idxs nm = .ok nm' → nm'.get? k = nm.get? k := by
  intro idxs
  induction idxs with
  | nil =>
      intro nm nm' k _ h
      simp only [gatherSample] at h
      injection h with h
      rw [h]
  | cons i rest ih =>
      intro nm nm' k hne h
      simp only [gatherSample] at h
      rcases hmi : c.measurements.get? i with _ | mp
      · rw [hmi] at h; simp at h
      · rw [hmi] at h
        dsimp only at h
        have hik : i ≠ k := hne i (List.mem_cons_self _ _)
        have hrest : ∀ j ∈ rest, j ≠ k := fun j hj => hne j (List.mem_cons_of_mem _ hj)
        cases mp with
        | countsMP sha =>
            dsimp only at h
            rw [ih _ nm' k hrest h]
            exact List.get?_set_ne _ nm hik
        | sampleMP sha =>
            dsimp only at h
            rcases hcb : collectBits sha dicts with e | bs
            · rw [hcb] at h; simp at h
            · rw [hcb] at h
              dsimp only at h
              rw [ih _ nm' k hrest h]
              exact List.get?_set_ne _ nm hik
        | varianceMP sha =>
            dsimp only at h
            rcases hcb : collectBits sha dicts with e | bs
            · rw [hcb] at h; simp at h
            · rw [hcb] at h
              dsimp only at h
              rw [ih _ nm' k hrest h]
              exact List.get?_set_ne _ nm hik
        | expectationMP eigs => simp at h
        | probabilityMP => simp at h
        | classicalShadowMP => simp at h
        | shadowExpvalMP => simp at h

/-- On success, the sample gathering loop wrote each scanned slot with its
per-kind gathered value (counts dictionary, ordered per-trial bit array,
or the variance of that array), and each scanned kind was sample-like. -/
theorem gatherSample_get (c : Circuit) (dicts : List MDict) :
    ∀ (idxs : List Nat) (nm nm' : List (Option MeasResult)),
      idxs.Pairwise (· ≠ ·) →
      (∀ i ∈ idxs, i < nm.length) →
      gatherSample c dicts idxs nm = .ok nm' →
      ∀ i ∈ idxs, ∃ mp, c.measurements.get? i = some mp ∧
        ((∃ sha, mp = MP.countsMP sha ∧ nm'.get? i =
            some (some (.countsDict (dicts.length - counterOf sha dicts)
              (counterOf sha dicts)))) ∨
         (∃ sha bs, mp = MP.sampleMP sha ∧ collectBits sha dicts = .ok bs ∧
            nm'.get? i = some (some (.bitArray bs))) ∨
         (∃ sha bs, mp = MP.varianceMP sha ∧ collectBits sha dicts = .ok bs ∧
            nm'.get? i = some (some (.scalar (npVar bs))))) := by
  intro idxs
  induction idxs with
  | nil => intro nm nm' _ _ _ i hi; exact absurd hi (List.not_mem_nil i)
  | cons i0 rest ih =>
      intro nm nm' hpw hbnd h i hi
      simp only [gatherSample] at h
      rcases hmi : c.measurements.get? i0 with _ | mp
      · rw [hmi] at h; simp at h
      · rw [hmi] at h
        dsimp only at h
        rw [List.pairwise_cons] at hpw
        cases mp with
        | countsMP sha =>
            dsimp only at h
            rcases List.mem_cons.mp hi with rfl | hmem
            · refine ⟨MP.countsMP sha, hmi, Or.inl ⟨sha, rfl, ?_⟩⟩
              have hpres := gatherSample_preserve c dicts rest _ nm' i
                (fun q hq => (hpw.1 q hq).symm) h
              rw [hpres]
              exact List.get?_set_eq_of_lt _ (hbnd i (List.mem_cons_self _ _))
            · exact ih _ nm' hpw.2
                (fun q hq => by
                  rw [List.length_set]
                  exact hbnd q (List.mem_cons_of_mem _ hq)) h i hmem
        | sampleMP sha =>
            dsimp only at h
            rcases hcb : collectBits sha dicts with e | bs
            · rw [hcb] at h; simp at h
            · rw [hcb] at h
              dsimp only at h
              rcases List.mem_cons.mp hi with rfl | hmem
              · refine ⟨MP.sampleMP sha, hmi, Or.inr (Or.inl ⟨sha, bs, rfl, hcb, ?_⟩)⟩
                have hpres := gatherSample_preserve c dicts rest _ nm' i
                  (fun q hq => (hpw.1 q hq).symm) h
                rw [hpres]
                exact List.get?_set_eq_of_lt _ (hbnd i (List.mem_cons_self _ _))
              · exact ih _ nm' hpw.2
                  (fun q hq => by
                    rw [List.length_set]
                    exact hbnd q (List.mem_cons_of_mem _ hq)) h i hmem
        | varianceMP sha =>
            dsimp only at h
            rcases hcb : collectBits sha dicts with e | bs
            · rw [hcb] at h; simp at h
            · rw [hcb] at h
              dsimp only at h
              rcases List.mem_cons.mp hi with rfl | hmem
              · refine ⟨MP.varianceMP sha, hmi,
                  Or.inr (Or.inr ⟨sha, bs, rfl, hcb, ?_⟩)⟩
                have hpres := gatherSample_preserve c dicts rest _ nm' i
                  (fun q hq => (hpw.1 q hq).symm) h
                rw [hpres]
                exact List.get?_set_eq_of_lt _ (hbnd i (List.mem_cons_self _ _))
              · exact ih _ nm' hpw.2
                  (fun q hq => by
                    rw [List.length_set]
                    exact hbnd q (List.mem_cons_of_mem _ hq)) h i hmem
        | expectationMP eigs => simp at h
        | probabilityMP => simp at h
        | classicalShadowMP => simp at h
        | shadowExpvalMP => simp at h

/-- The fold of the trial counter over the per-trial dictionaries counts
exactly the trials whose dictionary realized the referenced bit true. -/
theorem counterOf_foldl (sha : Nat) :
    ∀ (dicts : List MDict) (n : Nat),
      dicts.foldl (fun acc d => acc + (match dlookup d sha with
        | some true => 1
        | _ => 0)) n =
      n + (dicts.filter (fun d => dlookup d sha == some true)).length := by
  intro dicts
  induction dicts with
  | nil => intro n; simp
  | cons d rest ih =>
      intro n
      rcases hd : dlookup d sha with _ | b
      · simp only [List.foldl_cons, hd, List.filter_cons]
        rw [ih]
        simp [hd]
      · cases b with
        | false =>
            simp only [List.foldl_cons, hd, List.filter_cons]
            rw [ih]
            simp [hd]
        | true =>
            simp only [List.foldl_cons, hd, List.filter_cons]
            rw [ih]
            simp [hd]
            omega

/-- `Counter`-style accumulation equals the count of true-realizing
trials. -/
theorem counterOf_eq_true_trials (sha : Nat) (dicts : List MDict) :
    counterOf sha dicts =
      (dicts.filter (fun d => dlookup d sha == some true)).length := by
  unfold counterOf
  simpa using counterOf_foldl sha dicts 0

/-- A supported analytic kind is not sample-like. -/
theorem not_sampleLike_of_supported (mp : MP) (h : mp.isAnalyticSupported = true) :
    mp.isSampleLike = false := by
  cases mp <;> simp_all [MP.isAnalyticSupported, MP.isSampleLike]

/-- C7.  Characterization of `gather_native_mid_circuit_measurements` in
repeated-trial mode with total shot count `N`: on success, (1) each
analytic position holds its accumulated value divided by `N`, and only
`ExpectationMP`/`ProbabilityMP` kinds reach that branch; (2) a `CountsMP`
over a mid-circuit value holds the dictionary pairing 0 with the number
of trials realizing the bit false and 1 with the number realizing it
true; (3) a `SampleMP` holds the ordered per-trial bit array; (4) a
`VarianceMP` holds the variance of that array; and (5) when the analytic
scan covers its index list, no shadow measurement can be present (any
other measurement kind raises the descriptive unsupported-kind error
instead of returning). -/
theorem gather_results_characterization (c : Circuit) (N : Nat)
    (ms : List MeasResult) (dicts : List MDict) (out : List (Option MeasResult))
    (hN : c.shots.total_shots = some N)
    (hok : gather_native_mid_circuit_measurements c (.lst ms) dicts = .ok out) :
    (∀ j i m, (idx_analytic_measurements c).get? j = some i → ms.get? j = some m →
      ∃ mp v, c.measurements.get? i = some mp ∧ mp.isAnalyticSupported = true ∧
        m.divShots (some N) = .ok v ∧ out.get? i = some (some v)) ∧
    (∀ i sha, c.measurements.get? i = some (MP.countsMP sha) →
      out.get? i = some (some (.countsDict
        (dicts.length - (dicts.filter (fun d => dlookup d sha == some true)).length)
        (dicts.filter (fun d => dlookup d sha == some true)).length))) ∧
    (∀ i sha, c.measurements.get? i = some (MP.sampleMP sha) →
      ∃ bs, collectBits sha dicts = .ok bs ∧
        out.get? i = some (some (.bitArray bs))) ∧
    (∀ i sha, c.measurements.get? i = some (MP.varianceMP sha) →
      ∃ bs, collectBits sha dicts = .ok bs ∧
        out.get? i = some (some (.scalar (npVar bs)))) ∧
    ((idx_analytic_measurements c).length ≤ ms.length →
      ∀ mp ∈ c.measurements, mp.isShadow = false) := by
  unfold gather_native_mid_circuit_measurements at hok
  rw [hN] at hok
  dsimp only [accIter] at hok
  rcases hga : gatherAnalytic c (some N) ((idx_analytic_measurements c).zip ms)
      (List.replicate c.measurements.length none) with e | nm1
  · rw [hga] at hok; simp at hok
  · rw [hga] at hok
    dsimp only at hok
    have hpwA : ((idx_analytic_measurements c).zip ms).Pairwise
        (fun p q => p.1 ≠ q.1) := by
      exact zip_pairwise_fst (idx_analytic_measurements c) ms
        ((idxWhereAux_pairwise (fun m => !MP.isSampleLike m) c.measurements 0).imp
          (fun hlt => Nat.ne_of_lt hlt))
    have hbndA : ∀ p ∈ (idx_analytic_measurements c).zip ms,
        p.1 < (List.replicate c.measurements.length
          (none : Option MeasResult)).length := by
      intro p hp
      obtain ⟨a, hget, _⟩ :=
        (mem_idxWhere (fun m => !MP.isSampleLike m) c.measurements p.1).mp
          (List.of_mem_zip hp).1
      rw [List.length_replicate]
      exact lt_of_get?_eq_some hget
    have hAget := gatherAnalytic_get c (some N)
      ((idx_analytic_measurements c).zip ms)
      (List.replicate c.measurements.length none) nm1 hpwA hbndA hga
    have hlen1 : nm1.length = c.measurements.length := by
      rw [gatherAnalytic_length c (some N) _ _ nm1 hga, List.length_replicate]
    have hpwS : (idx_sampling_measurements c).Pairwise (· ≠ ·) :=
      (idxWhereAux_pairwise MP.isSampleLike c.measurements 0).imp
        (fun hlt => Nat.ne_of_lt hlt)
    have hbndS : ∀ i ∈ idx_sampling_measurements c, i < nm1.length := by
      intro i hi
      obtain ⟨a, hget, _⟩ :=
        (mem_idxWhere MP.isSampleLike c.measurements i).mp hi
      rw [hlen1]
      exact lt_of_get?_eq_some hget
    have hSget := gatherSample_get c dicts (idx_sampling_measurements c)
      nm1 out hpwS hbndS hok
    refine ⟨?_, ?_, ?_, ?_, ?_⟩
    · intro j i m hj hm
      have hzip := zip_get?_of (idx_analytic_measurements c) ms j i m hj hm
      obtain ⟨mp, v, hget, hsupp, hdiv, hnm1⟩ :=
        hAget (i, m) (List.get?_mem hzip)
      refine ⟨mp, v, hget, hsupp, hdiv, ?_⟩
      have hpres := gatherSample_preserve c dicts (idx_sampling_measurements c)
        nm1 out i ?_ hok
      · rw [hpres]; exact hnm1
      · intro k hk
        obtain ⟨a, hgetk, hpk⟩ :=
          (mem_idxWhere MP.isSampleLike c.measurements k).mp hk
        intro hki
        subst hki
        rw [hget] at hgetk
        injection hgetk with hmpa
        subst hmpa
        rw [not_sampleLike_of_supported mp hsupp] at hpk
        exact Bool.noConfusion hpk
    · intro i sha hi
      have hiS : i ∈ idx_sampling_measurements c :=
        (mem_idxWhere MP.isSampleLike c.measurements i).mpr
          ⟨MP.countsMP sha, hi, rfl⟩
      obtain ⟨mp', hget', hdisj⟩ := hSget i hiS
      rw [hi] at hget'
      injection hget' with hmp'
      subst hmp'
      rcases hdisj with ⟨sha', heq, hout⟩ | ⟨sha', bs, heq, _, _⟩ | ⟨sha', bs, heq, _, _⟩
      · injection heq with hsha
        subst hsha
        rw [counterOf_eq_true_trials] at hout
        exact hout
      · exact absurd heq (by simp)
      · exact absurd heq (by simp)
    · intro i sha hi
      have hiS : i ∈ idx_sampling_measurements c :=
        (mem_idxWhere MP.isSampleLike c.measurements i).mpr
          ⟨MP.sampleMP sha, hi, rfl⟩
      obtain ⟨mp', hget', hdisj⟩ := hSget i hiS
      rw [hi] at hget'
      injection hget' with hmp'
      subst hmp'
      rcases hdisj with ⟨sha', heq, _⟩ | ⟨sha', bs, heq, hcb, hout⟩ | ⟨sha', bs, heq, _, _⟩
      · exact absurd heq (by simp)
      · injection heq with hsha
        subst hsha
        exact ⟨bs, hcb, hout⟩
      · exact absurd heq (by simp)
    · intro i sha hi
      have hiS : i ∈ idx_sampling_measurements c :=
        (mem_idxWhere MP.isSampleLike c.measurements i).mpr
          ⟨MP.varianceMP sha, hi, rfl⟩
      obtain ⟨mp', hget', hdisj⟩ := hSget i hiS
      rw [hi] at hget'
      injection hget' with hmp'
      subst hmp'
      rcases hdisj with ⟨sha', heq, _⟩ | ⟨sha', bs, heq, _, _⟩ | ⟨sha', bs, heq, hcb, hout⟩
      · exact absurd heq (by simp)
      · exact absurd heq (by simp)
      · injection heq with hsha
        subst hsha
        exact ⟨bs, hcb, hout⟩
    · intro hcover mp hmp
      by_contra hns
      have hsh : mp.isShadow = true := by
        revert hns
        cases hb : mp.isShadow <;> simp
      have hsl : mp.isSampleLike = false := by
        cases mp <;> simp_all [MP.isShadow, MP.isSampleLike]
      obtain ⟨i, hgeti⟩ := List.get?_of_mem hmp
      have hiA : i ∈ idx_analytic_measurements c :=
        (mem_idxWhere (fun m => !MP.isSampleLike m) c.measurements i).mpr
          ⟨mp, hgeti, by simp [hsl]⟩
      obtain ⟨j, hj⟩ := List.get?_of_mem hiA
      have hjlt : j < (idx_analytic_measurements c).length := lt_of_get?_eq_some hj
      obtain ⟨m, hmj⟩ : ∃ m, ms.get? j = some m := by
        rcases hms : ms.get? j with _ | m
        · rw [List.get?_eq_none] at hms; omega
        · exact ⟨m, rfl⟩
      have hzip := zip_get?_of (idx_analytic_measurements c) ms j i m hj hmj
      obtain ⟨mp', v, hget', hsupp, _, _⟩ := hAget (i, m) (List.get?_mem hzip)
      rw [hgeti] at hget'
      injection hget' with hmp'
      subst hmp'
      rw [not_shadow_of_supported mp hsupp] at hsh
      exact Bool.noConfusion hsh

/-- Witness for C7 at a concrete input: a five-kind measurement list with
four trial dictionaries (three true realizations) gathers successfully,
and the counts clause of the characterization yields the dictionary
pairing 0 with 1 and 1 with 3. -/
theorem gather_results_characterization_witness :
    gatherDemoCircuit.shots.total_shots = some 4 ∧
    gather_native_mid_circuit_measurements gatherDemoCircuit
        (.lst [MeasResult.scalar (fq 2 1), MeasResult.vector [fq 3 1, fq 1 1]])
        [[(5, true)], [(5, false)], [(5, true)], [(5, true)]] =
      .ok [some (.scalar (fq 1 2)), some (.countsDict 1 3),
        some (.bitArray [true, false, true, true]), some (.scalar (fq 3 16)),
        some (.vector [fq 3 4, fq 1 4])] ∧
    ([some (.scalar (fq 1 2)), some (.countsDict 1 3),
        some (.bitArray [true, false, true, true]), some (.scalar (fq 3 16)),
        some (.vector [fq 3 4, fq 1 4])] :
      List (Option MeasResult)).get? 1 =
        some (some (.countsDict
          (([[(5, true)], [(5, false)], [(5, true)], [(5, true)]] :
              List MDict).length -
            (([[(5, true)], [(5, false)], [(5, true)], [(5, true)]] :
                List MDict).filter (fun d => dlookup d 5 == some true)).length)
          (([[(5, true)], [(5, false)], [(5, true)], [(5, true)]] :
              List MDict).filter (fun d => dlookup d 5 == some true)).length)) := by
  refine ⟨rfl, rfl, ?_⟩
  exact (gather_results_characterization gatherDemoCircuit 4
    [MeasResult.scalar (fq 2 1), MeasResult.vector [fq 3 1, fq 1 1]]
    [[(5, true)], [(5, false)], [(5, true)], [(5, true)]]
    [some (.scalar (fq 1 2)), some (.countsDict 1 3),
      some (.bitArray [true, false, true, true]), some (.scalar (fq 3 16)),
      some (.vector [fq 3 4, fq 1 4])] rfl rfl).2.1 1 5 rfl
